import Mathlib

/-!
Parallel checksumming of a directory tree: a shallow embedding of `bp.go`
and the verification of its specification.

* Go strings are byte sequences (`GoString`), compared bytewise.
* The library functions the program calls (`sort.Slice`, `crypto/md5`,
  `encoding/hex`, `fmt`, `filepath.Walk`, channels and `select`) are
  modelled from their documented behaviour; the task groups of package
  `parallel` are modelled from section 4.5 of the specification.
* The goroutines of `fetchChecksums` and `checksumTree` are a step function
  on an explicit state; a run is a list of actions, one action being one
  step of one goroutine or the cancellation of the context by the caller.
-/

namespace Bp

/-! ## Strings -/

/-- A Go string: a sequence of bytes. -/
abbrev GoString := List Nat

/-- The bytes of an ASCII literal. -/
def ascii (s : String) : GoString := s.toList.map Char.toNat

/-- Go's `a < b` on strings: bytewise lexicographic comparison, a proper
prefix being smaller. -/
def strLess : GoString → GoString → Bool
  | [], [] => false
  | [], _ :: _ => true
  | _ :: _, [] => false
  | a :: as, b :: bs =>
    if a < b then true else if b < a then false else strLess as bs

/-- Go's `a <= b` on strings. -/
def strLe (a b : GoString) : Bool := !strLess b a

/-! ## Records -/

/-- `type fileChecksum struct { Path, Checksum string }`. -/
structure fileChecksum where
  Path : GoString
  Checksum : GoString
deriving DecidableEq, Repr

/-- The comparator `checksumTree` hands to `sort.Slice`:
`fileChecksums[i].Path < fileChecksums[j].Path`. -/
def lessByPath (a b : fileChecksum) : Bool := strLess a.Path b.Path

/-! ## sort.Slice -/

/-- Inner loop of the insertion sort of package `sort`: the new element,
arriving at the right end, moves left while it is less than its left
neighbour.  The sorted prefix is kept reversed (its head is the rightmost
element). -/
def insertLeft {α : Type} (less : α → α → Bool) (x : α) : List α → List α
  | [] => [x]
  | y :: rest => if less x y then y :: insertLeft less x rest else x :: y :: rest

/-- Model of `sort.Slice(data, less)`: the insertion sort of package `sort`
(the algorithm `sort.Slice` runs on short slices).  `sort.Slice` promises a
sorted permutation and no stability; `sortSlice_unique` shows that on
records with distinct paths every sorted permutation is this one. -/
def sortSlice {α : Type} (less : α → α → Bool) (data : List α) : List α :=
  (data.foldl (fun sortedRev x => insertLeft less x sortedRev) []).reverse

/-! ## crypto/md5 and encoding/hex -/

/-- Reduction of a sum to a 32-bit word (`uint32` arithmetic wraps). -/
def w32 (x : Nat) : Nat := x % 2 ^ 32

/-- `bits.RotateLeft32`. -/
def rotl32 (x k : Nat) : Nat := w32 (x <<< k) ||| (x >>> (32 - k))

/-- Bitwise complement of a 32-bit word. -/
def not32 (x : Nat) : Nat := x ^^^ 0xffffffff

/-- The sine table of MD5 (RFC 1321, 3.4): `floor (2^32 * |sin (i + 1)|)`. -/
def md5K : List Nat :=
  [0xd76aa478, 0xe8c7b756, 0x242070db, 0xc1bdceee,
   0xf57c0faf, 0x4787c62a, 0xa8304613, 0xfd469501,
   0x698098d8, 0x8b44f7af, 0xffff5bb1, 0x895cd7be,
   0x6b901122, 0xfd987193, 0xa679438e, 0x49b40821,
   0xf61e2562, 0xc040b340, 0x265e5a51, 0xe9b6c7aa,
   0xd62f105d, 0x02441453, 0xd8a1e681, 0xe7d3fbc8,
   0x21e1cde6, 0xc33707d6, 0xf4d50d87, 0x455a14ed,
   0xa9e3e905, 0xfcefa3f8, 0x676f02d9, 0x8d2a4c8a,
   0xfffa3942, 0x8771f681, 0x6d9d6122, 0xfde5380c,
   0xa4beea44, 0x4bdecfa9, 0xf6bb4b60, 0xbebfbc70,
   0x289b7ec6, 0xeaa127fa, 0xd4ef3085, 0x04881d05,
   0xd9d4d039, 0xe6db99e5, 0x1fa27cf8, 0xc4ac5665,
   0xf4292244, 0x432aff97, 0xab9423a7, 0xfc93a039,
   0x655b59c3, 0x8f0ccc92, 0xffeff47d, 0x85845dd1,
   0x6fa87e4f, 0xfe2ce6e0, 0xa3014314, 0x4e0811a1,
   0xf7537e82, 0xbd3af235, 0x2ad7d2bb, 0xeb86d391]

/-- The per-round rotation amounts of MD5. -/
def md5S : List Nat :=
  [7, 12, 17, 22, 7, 12, 17, 22, 7, 12, 17, 22, 7, 12, 17, 22,
   5, 9, 14, 20, 5, 9, 14, 20, 5, 9, 14, 20, 5, 9, 14, 20,
   4, 11, 16, 23, 4, 11, 16, 23, 4, 11, 16, 23, 4, 11, 16, 23,
   6, 10, 15, 21, 6, 10, 15, 21, 6, 10, 15, 21, 6, 10, 15, 21]

/-- The four chaining words of MD5. -/
structure Md5State where
  a : Nat
  b : Nat
  c : Nat
  d : Nat
deriving DecidableEq, Repr

/-- The initial chaining value. -/
def md5Init : Md5State := ⟨0x67452301, 0xefcdab89, 0x98badcfe, 0x10325476⟩

/-- The bytes of `x` in little-endian order, `n` of them. -/
def leBytes : Nat → Nat → List Nat
  | 0, _ => []
  | n + 1, x => x % 256 :: leBytes n (x / 256)

/-- The number whose little-endian bytes are given. -/
def leWord : List Nat → Nat
  | [] => 0
  | b :: rest => b % 256 + 256 * leWord rest

/-- The first `n` groups of `size` elements. -/
def chunks {α : Type} (size : Nat) : Nat → List α → List (List α)
  | 0, _ => []
  | n + 1, l => l.take size :: chunks size n (l.drop size)

/-- MD5 padding: a `0x80` byte, zero bytes up to 56 modulo 64, and the bit
length as 8 little-endian bytes. -/
def md5Pad (msg : List Nat) : List Nat :=
  msg ++ 0x80 :: List.replicate ((55 + 64 - msg.length % 64) % 64) 0
    ++ leBytes 8 ((8 * msg.length) % 2 ^ 64)

/-- One of the 64 operations on a block with message words `m`. -/
def md5Round (m : List Nat) (st : Md5State) (i : Nat) : Md5State :=
  let f :=
    if i < 16 then (st.b &&& st.c) ||| (not32 st.b &&& st.d)
    else if i < 32 then (st.d &&& st.b) ||| (not32 st.d &&& st.c)
    else if i < 48 then st.b ^^^ st.c ^^^ st.d
    else st.c ^^^ (st.b ||| not32 st.d)
  let g :=
    if i < 16 then i
    else if i < 32 then (5 * i + 1) % 16
    else if i < 48 then (3 * i + 5) % 16
    else (7 * i) % 16
  let t := w32 (f + st.a + md5K.getD i 0 + m.getD g 0)
  ⟨st.d, w32 (st.b + rotl32 t (md5S.getD i 0)), st.b, st.c⟩

/-- The compression of one 64-byte block into the chaining value. -/
def md5Block (st : Md5State) (block : List Nat) : Md5State :=
  let m := (chunks 4 16 block).map leWord
  let r := (List.range 64).foldl (md5Round m) st
  ⟨w32 (st.a + r.a), w32 (st.b + r.b), w32 (st.c + r.c), w32 (st.d + r.d)⟩

/-- The MD5 digest of a byte sequence as RFC 1321 defines it: the message
is padded, every 64-byte block of the padded message is compressed into the
chaining value, and the four words are written out.  This is the reference
the streaming `digest` of the program is compared with. -/
def md5Sum (msg : List Nat) : List Nat :=
  let padded := md5Pad msg
  let st := (chunks 64 (padded.length / 64) padded).foldl md5Block md5Init
  leBytes 4 st.a ++ leBytes 4 st.b ++ leBytes 4 st.c ++ leBytes 4 st.d

/-- Model of the `digest` of package `crypto/md5`: the chaining value, the
bytes of the block not yet complete, and the number of bytes written (a
`uint64`). -/
structure digest where
  s : Md5State
  x : List Nat
  len : Nat

/-- `md5.New()`. -/
def digest.New : digest := ⟨md5Init, [], 0⟩

/-- `Write(p)`: the complete blocks of the buffered bytes followed by `p`
are compressed, the rest is buffered. -/
def digest.Write (d : digest) (p : List Nat) : digest :=
  let buf := d.x ++ p
  let n := buf.length / 64
  ⟨(chunks 64 n buf).foldl md5Block d.s, buf.drop (64 * n), (d.len + p.length) % 2 ^ 64⟩

/-- `Sum(nil)`: the padding (`0x80`, zero bytes, the length in bits) is
written to a copy of the digest and the chaining value is written out. -/
def digest.Sum (d : digest) : List Nat :=
  let pad := (55 + 64 - d.len % 64) % 64
  let d1 := d.Write (0x80 :: List.replicate pad 0 ++ leBytes 8 ((8 * d.len) % 2 ^ 64))
  leBytes 4 d1.s.a ++ leBytes 4 d1.s.b ++ leBytes 4 d1.s.c ++ leBytes 4 d1.s.d

/-- Model of `io.Copy(hash, fh)` on a file whose successive reads return
`reads`: each is written to the hash. -/
def ioCopy (hash : digest) (reads : List (List Nat)) : digest :=
  reads.foldl digest.Write hash

/-- The digit table of package `hex`: `"0123456789abcdef"`. -/
def hextable : List Nat :=
  [48, 49, 50, 51, 52, 53, 54, 55, 56, 57, 97, 98, 99, 100, 101, 102]

/-- Model of `hex.EncodeToString`: two digits per byte, high nibble first. -/
def hexEncode : List Nat → GoString
  | [] => []
  | b :: rest => hextable.getD (b / 16 % 16) 0 :: hextable.getD (b % 16) 0 :: hexEncode rest

/-! ## Errors and fmt -/

/-- The `error` values the program handles. -/
inductive GoError
  | canceled
  | deadlineExceeded
  | os (msg : GoString)
  | wrapped (msg : GoString) (inner : GoError)
deriving DecidableEq, Repr

/-- The method `Error()`: `context.Canceled`, `context.DeadlineExceeded`,
an error of the operating system, an error made by `fmt.Errorf`. -/
def GoError.Error : GoError → GoString
  | .canceled => ascii "context canceled"
  | .deadlineExceeded => ascii "context deadline exceeded"
  | .os msg => msg
  | .wrapped msg _ => msg

/-- The error `errors.Unwrap` returns. -/
def GoError.Unwrap : GoError → Option GoError
  | .wrapped _ inner => some inner
  | _ => none

/-- Model of `fmt.Sprintf` for string operands and the verbs `%s`, `%v`
and `%w`: each verb is replaced by the next operand, other bytes are
copied. -/
def Sprintf : GoString → List GoString → GoString
  | [], _ => []
  | [c], _ => [c]
  | c :: v :: rest, args =>
    if c = 37 ∧ (v = 115 ∨ v = 118 ∨ v = 119) then
      match args with
      | [] => Sprintf rest []
      | a :: more => a ++ Sprintf rest more
    else c :: Sprintf (v :: rest) args

/-- Model of `fmt.Errorf(format, err)` with one `%w` operand. -/
def Errorf (format : GoString) (err : GoError) : GoError :=
  .wrapped (Sprintf format [err.Error]) err

/-! ## The file system -/

/-- What `info.Mode()` says of an entry. -/
inductive FileMode
  | regular
  | dir
  | symlink
  | other
deriving DecidableEq, Repr

/-- The tree `filepath.Walk` sees: what `os.Lstat` and the reading of a
directory return for an entry.  The children of a directory are listed
under their names, in the order the library visits them. -/
inductive Node
  | leaf (mode : FileMode)
  | dir (children : List (GoString × Node))
  | unreadableDir (err : GoError)
  | lstatError (err : GoError)

/-- What opening and reading a file gives: `os.Open` fails, a read fails,
or the successive reads return `reads`, whose concatenation is the content
of the file. -/
inductive FileRead
  | openFails (err : GoError)
  | copyFails (err : GoError)
  | content (reads : List (List Nat))
deriving DecidableEq, Repr

/-- The environment of one run: the argument `root`, the tree under it and
the content of the files (by path, as `os.Open` resolves it, symbolic links
followed). -/
structure World where
  root : GoString
  tree : Node
  read : GoString → FileRead

/-- One invocation of the callback of `filepath.Walk`: the path, the mode
of `info` (none when `info` is nil) and `err`. -/
structure WalkCall where
  path : GoString
  mode : Option FileMode
  err : Option GoError
deriving DecidableEq, Repr

/-- Model of `strings.Split(path, "/")`: the elements between the
separators, empty ones included. -/
def splitSlash : GoString → List GoString
  | [] => [[]]
  | c :: rest =>
    if c = 47 then [] :: splitSlash rest
    else
      match splitSlash rest with
      | [] => [[c]]
      | e :: es => (c :: e) :: es

/-- One path element in `filepath.Clean`, the elements kept so far being
held last first: an empty element and `.` are dropped; `..` removes the
element before it, is kept at the start of a path that is not rooted, and
is dropped at the start of a rooted one; any other element is kept. -/
def cleanStep (rooted : Bool) (kept : List GoString) (elem : GoString) : List GoString :=
  if elem = [] ∨ elem = [46] then kept
  else if elem = [46, 46] then
    match kept with
    | top :: below => if top = [46, 46] then elem :: kept else below
    | [] => if rooted then [] else [elem]
  else elem :: kept

/-- The elements, held last first, joined by the separator. -/
def joinRev : List GoString → GoString
  | [] => []
  | [e] => e
  | e :: below => joinRev below ++ 47 :: e

/-- Model of `filepath.Clean` (Unix): the shortest path equivalent to
`path` by purely lexical processing; the empty path becomes `.`. -/
def Clean (path : GoString) : GoString :=
  if path = [] then [46]
  else
    let rooted := decide (path.head? = some 47)
    let kept := (splitSlash path).foldl (cleanStep rooted) []
    if rooted then 47 :: joinRev kept
    else if kept = [] then [46] else joinRev kept

/-- Model of `filepath.Join(dir, name)`: the non-empty elements joined by
the separator, and the result cleaned. -/
def Join (dir name : GoString) : GoString :=
  if dir ≠ [] then Clean (dir ++ 47 :: name)
  else if name ≠ [] then Clean name
  else []

mutual
/-- Model of `filepath.Walk`: the invocations of the callback, in order, as
long as the callback returns nil (a non-nil return ends the walk, see
`Action.walkerCall`).  A directory that cannot be read and an entry whose
`Lstat` fails are reported through `err`. -/
def walkCalls (path : GoString) : Node → List WalkCall
  | .leaf mode => [⟨path, some mode, none⟩]
  | .dir children => ⟨path, some .dir, none⟩ :: walkChildren path children
  | .unreadableDir err => [⟨path, some .dir, some err⟩]
  | .lstatError err => [⟨path, none, some err⟩]
/-- The invocations for the entries of the directory `dir`. -/
def walkChildren (dir : GoString) : List (GoString × Node) → List WalkCall
  | [] => []
  | (name, child) :: rest => walkCalls (Join dir name) child ++ walkChildren dir rest
end

/-! ## md5SumFile -/

/-- `md5SumFile`: the hexadecimal MD5 digest of the file, or the error of
`os.Open` or of `io.Copy` with an empty string. -/
def md5SumFile (w : World) (filename : GoString) : GoString × Option GoError :=
  match w.read filename with
  | .openFails err => ([], some err)
  | .copyFails err => ([], some err)
  | .content reads => (hexEncode (ioCopy digest.New reads).Sum, none)

/-! ## The pipeline of fetchChecksums and checksumTree

The goroutines are the collector and the fetcher (spawned by `checksumTree`
in one task group) and the digesters and the walker (spawned by
`fetchChecksums` in a nested group).  Both channels are unbuffered: a send
and a receive happen together, in one step.  A task group records the first
non-nil error a task returns and cancels its context; `parallel.Run` returns
that error once every task of the group has returned. -/

/-- `const maxDigesters = 20`. -/
def maxDigesters : Nat := 20

/-- The walker: inside `filepath.Walk` with the invocations still to run
(the first one is the current one), or returned. -/
inductive Walker
  | walking (calls : List WalkCall)
  | done (ret : Option GoError)
deriving DecidableEq, Repr

/-- A digester: at the outer `select`, inside `md5SumFile`, at the inner
`select` with its result, or returned. -/
inductive Digester
  | idle
  | hashing (path : GoString)
  | sending (cs : fileChecksum)
  | done (ret : Option GoError)
deriving DecidableEq, Repr

/-- The collector: at its `select`, or returned. -/
inductive Collector
  | running
  | done (ret : Option GoError)
deriving DecidableEq, Repr

/-- The fetcher: inside `parallel.Run`, waiting for the digesters and the
walker, or returned (with `resultsCh` closed). -/
inductive Fetcher
  | waiting
  | done (ret : Option GoError)
deriving DecidableEq, Repr

/-- The state of one call of `checksumTree`. -/
structure State where
  /-- `Err()` of the context passed to `checksumTree`. -/
  parentErr : Option GoError
  /-- `Err()` of the context of the group of `checksumTree`. -/
  outerCtx : Option GoError
  /-- `Err()` of the context of the group of `fetchChecksums`. -/
  innerCtx : Option GoError
  /-- The error recorded by the group of `checksumTree`. -/
  outerErr : Option GoError
  /-- The error recorded by the group of `fetchChecksums`. -/
  innerErr : Option GoError
  jobsClosed : Bool
  resultsClosed : Bool
  walker : Walker
  digesters : List Digester
  collector : Collector
  fetcher : Fetcher
  /-- The variable `fileChecksums` of `checksumTree`. -/
  fileChecksums : List fileChecksum

/-- The first of two optional errors that is set. -/
def firstErr : Option GoError → Option GoError → Option GoError
  | some e, _ => some e
  | none, o => o

/-- Modelled from the spec: the task group of package `parallel` (not in
src/), for a task spawned with `parallel.Continue` in the group of
`fetchChecksums`.  The task returns `ret`: a nil return lets the others
continue; a non-nil error is recorded if it is the first, and the context
of the group is cancelled. -/
def returnInner (ret : Option GoError) (s : State) : State :=
  match ret with
  | none => s
  | some e =>
    { s with innerErr := firstErr s.innerErr (some e),
             innerCtx := firstErr s.innerCtx (some .canceled) }

/-- Modelled from the spec: the task group of package `parallel` (not in
src/), for a task of the group of `checksumTree`.  The task returns `ret`;
a non-nil error is recorded if it is the first, and cancelling the context
of the group cancels the context of the nested group, derived from it. -/
def returnOuter (ret : Option GoError) (s : State) : State :=
  match ret with
  | none => s
  | some e =>
    { s with outerErr := firstErr s.outerErr (some e),
             outerCtx := firstErr s.outerCtx (some .canceled),
             innerCtx := firstErr s.innerCtx (some .canceled) }

/-- Whether the walker has returned. -/
def Walker.isDone : Walker → Bool
  | .done _ => true
  | .walking _ => false

/-- Whether the digester has returned. -/
def Digester.isDone : Digester → Bool
  | .done _ => true
  | _ => false

/-- Whether the collector has returned. -/
def Collector.isDone : Collector → Bool
  | .done _ => true
  | .running => false

/-- Whether the fetcher has returned. -/
def Fetcher.isDone : Fetcher → Bool
  | .done _ => true
  | .waiting => false

/-- The steps of the pipeline.  `cancel` is the environment cancelling the
context passed to `checksumTree` (by `cancel()` or by a deadline); the
others are steps of a goroutine, `i` being the index of a digester. -/
inductive Action
  | cancel (deadline : Bool)
  | walkerCall
  | walkerReturn
  | walkerCtx
  | job (i : Nat)
  | digCtx (i : Nat)
  | digClosed (i : Nat)
  | digHash (i : Nat)
  | result (i : Nat)
  | collCtx
  | collClosed
  | fetcherReturn
deriving DecidableEq, Repr

/-- Whether the action is a step of a goroutine of the pipeline. -/
def Action.isTask : Action → Bool
  | .cancel _ => false
  | _ => true

/-- The walker returns `ret` from `filepath.Walk`: the deferred
`close(jobsCh)` runs and the group records the return value. -/
def walkerReturns (ret : Option GoError) (s : State) : State :=
  returnInner ret { s with walker := .done ret, jobsClosed := true }

/-- Digester `i` returns `ret`. -/
def digesterReturns (i : Nat) (ret : Option GoError) (s : State) : State :=
  returnInner ret { s with digesters := s.digesters.set i (.done ret) }

/-- One step: the state after the action, or none when the action is not
enabled.  A `select` with several ready cases may take any of them, so each
case is an action of its own.  The return of a goroutine, its deferred
`close` and the bookkeeping of its task group are one step; so are a send
and the receive that meets it on an unbuffered channel. -/
def step (w : World) (s : State) : Action → Option State
  | .cancel deadline =>
    match s.parentErr with
    | some _ => none
    | none =>
      let err : GoError := if deadline then .deadlineExceeded else .canceled
      some { s with parentErr := some err,
                    outerCtx := firstErr s.outerCtx (some err),
                    innerCtx := firstErr s.innerCtx (some err) }
  | .walkerCall =>
    -- the callback, up to its `select`
    match s.walker with
    | .walking (c :: rest) =>
      match c.err, c.mode with
      | some err, _ => some (walkerReturns (some err) s)
      | none, some .regular => none
      -- `!info.Mode().IsRegular()`: return nil, the walk goes on
      | none, _ => some { s with walker := .walking rest }
    | _ => none
  | .walkerReturn =>
    match s.walker with
    | .walking [] => some (walkerReturns none s)
    | _ => none
  | .walkerCtx =>
    -- `case <-ctx.Done(): return ctx.Err()` in the callback
    match s.walker with
    | .walking (c :: _) =>
      match c.err, c.mode, s.innerCtx with
      | none, some .regular, some err => some (walkerReturns (some err) s)
      | _, _, _ => none
    | _ => none
  | .job i =>
    -- `case jobsCh <- path:` of the walker meets `case path, more := <-jobsCh:`
    match s.walker, s.digesters[i]? with
    | .walking (c :: rest), some .idle =>
      match c.err, c.mode with
      | none, some .regular =>
        some { s with walker := .walking rest,
                      digesters := s.digesters.set i (.hashing c.path) }
      | _, _ => none
    | _, _ => none
  | .digCtx i =>
    -- `case <-ctx.Done(): return ctx.Err()` of either `select`
    match s.digesters[i]?, s.innerCtx with
    | some .idle, some err => some (digesterReturns i (some err) s)
    | some (.sending _), some err => some (digesterReturns i (some err) s)
    | _, _ => none
  | .digClosed i =>
    -- `case path, more := <-jobsCh:` on the closed channel
    match s.digesters[i]?, s.jobsClosed with
    | some .idle, true => some (digesterReturns i none s)
    | _, _ => none
  | .digHash i =>
    match s.digesters[i]? with
    | some (.hashing path) =>
      match md5SumFile w path with
      | (_, some err) => some (digesterReturns i (some err) s)
      | (sum, none) =>
        some { s with digesters := s.digesters.set i (.sending ⟨path, sum⟩) }
    | _ => none
  | .result i =>
    -- `case resultsCh <- ...:` meets `case cs, more := <-resultsCh:`
    match s.digesters[i]?, s.collector with
    | some (.sending cs), .running =>
      some { s with digesters := s.digesters.set i .idle,
                    fileChecksums := s.fileChecksums ++ [cs] }
    | _, _ => none
  | .collCtx =>
    match s.collector, s.outerCtx with
    | .running, some err => some (returnOuter (some err) { s with collector := .done (some err) })
    | _, _ => none
  | .collClosed =>
    match s.collector, s.resultsClosed with
    | .running, true => some { s with collector := .done none }
    | _, _ => none
  | .fetcherReturn =>
    -- `parallel.Run` returns, the deferred `close(resultsCh)` runs
    match s.fetcher with
    | .waiting =>
      if s.walker.isDone ∧ s.digesters.all Digester.isDone then
        some (returnOuter s.innerErr
          { s with fetcher := .done s.innerErr, resultsClosed := true })
      else none
    | .done _ => none

/-- The state when `checksumTree` has spawned its goroutines, for a pool
of `k` digesters. -/
def initWith (w : World) (k : Nat) : State where
  parentErr := none
  outerCtx := none
  innerCtx := none
  outerErr := none
  innerErr := none
  jobsClosed := false
  resultsClosed := false
  walker := .walking (walkCalls w.root w.tree)
  digesters := List.replicate k .idle
  collector := .running
  fetcher := .waiting
  fileChecksums := []

/-- The state when `checksumTree` has spawned its goroutines: the program
starts `maxDigesters` digesters. -/
def init (w : World) : State := initWith w maxDigesters

/-- The state after a list of actions, none if one of them is not enabled. -/
def run (w : World) : State → List Action → Option State
  | s, [] => some s
  | s, a :: rest =>
    match step w s a with
    | some s1 => run w s1 rest
    | none => none


/-- What `checksumTree` returns once `parallel.Run` has returned, that is
once the collector and the fetcher have (the group waits for all its
tasks): `nil` and the wrapped error when the group recorded one, or the
sorted list and `nil`.  None while `parallel.Run` waits. -/
def checksumTree (s : State) : Option (List fileChecksum × Option GoError) :=
  match s.collector, s.fetcher with
  | .done _, .done _ =>
    match s.outerErr with
    | some err => some ([], some (Errorf (ascii "Error checksumming tree: %w") err))
    | none => some (sortSlice lessByPath s.fileChecksums, none)
  | _, _ => none

/-! ## main -/

/-- What a run of the program leaves: the bytes written to standard output
and to standard error, and the exit status. -/
structure Process where
  stdout : GoString
  stderr : GoString
  status : Nat
deriving DecidableEq, Repr

/-- `main`, from the return of `checksumTree` on: the error goes to
standard error, one line per record goes to standard output, and `main`
returns, which ends the process with status 0. -/
def main (ret : List fileChecksum × Option GoError) : Process :=
  let stderr := match ret.2 with
    | some err => Sprintf (ascii "%v\n") [err.Error]
    | none => []
  let stdout := ret.1.foldl
    (fun out fc => out ++ Sprintf (ascii "%s %s\n") [fc.Checksum, fc.Path]) []
  ⟨stdout, stderr, 0⟩

/-- What `checksumTree` returns with a pool of `k` digesters under the
interleaving `acts`; none when `acts` is not a complete run. -/
def checksumTreeWith (k : Nat) (w : World) (acts : List Action) :
    Option (List fileChecksum × Option GoError) :=
  (run w (initWith w k) acts).bind checksumTree

/-- What `checksumTree` returns under the interleaving `acts`; none when
`acts` is not a complete run. -/
def checksumTreeRun (w : World) (acts : List Action) :
    Option (List fileChecksum × Option GoError) :=
  (run w (init w) acts).bind checksumTree

/-- The whole program under the interleaving `acts`. -/
def program (w : World) (acts : List Action) : Option Process :=
  (checksumTreeRun w acts).map main

/-! ## What the verification speaks of -/

/-- The invocation is for a regular file: `err == nil` and
`info.Mode().IsRegular()`, the case in which the callback sends the path. -/
def isRegularCall (c : WalkCall) : Bool :=
  match c.err, c.mode with
  | none, some .regular => true
  | _, _ => false

/-- The paths the callback sends for a list of invocations. -/
def regularPaths (calls : List WalkCall) : List GoString :=
  (calls.filter isRegularCall).map WalkCall.path

/-- The path a digester holds between receiving it and handing over its
result. -/
def Digester.inflight : Digester → List GoString
  | .hashing path => [path]
  | .sending cs => [cs.Path]
  | _ => []

/-- The paths held by the digesters. -/
def inflight (ds : List Digester) : List GoString :=
  ds.flatMap Digester.inflight

/-- The paths the walker has still to send. -/
def Walker.pending : Walker → List GoString
  | .walking calls => regularPaths calls
  | .done _ => []

/-- Every goroutine of the pipeline has returned. -/
def allReturned (s : State) : Bool :=
  s.walker.isDone && s.digesters.all Digester.isDone && s.collector.isDone && s.fetcher.isDone

/-- What holds of a digester in a reachable state: a path it holds was sent
by the walker, a result it holds is the digest of its path, it returned nil
only on the closed `jobsCh`, and an error it returned is recorded. -/
def DigOk (w : World) (s : State) : Digester → Prop
  | .idle => True
  | .hashing path => path ∈ regularPaths (walkCalls w.root w.tree)
  | .sending cs =>
    cs.Path ∈ regularPaths (walkCalls w.root w.tree) ∧
      md5SumFile w cs.Path = (cs.Checksum, none)
  | .done none => s.jobsClosed = true
  | .done (some _) => s.innerErr.isSome = true

/-- The invariant of the pipeline. -/
structure Inv (w : World) (s : State) : Prop where
  jobs : s.jobsClosed = s.walker.isDone
  results : s.resultsClosed = s.fetcher.isDone
  waited : s.fetcher.isDone = true →
    s.walker.isDone = true ∧ ∀ d ∈ s.digesters, d.isDone = true
  parentCtx : s.parentErr.isSome = true → s.outerCtx.isSome = true
  outerInner : s.outerCtx.isSome = true → s.innerCtx.isSome = true
  outerErrCtx : s.outerErr.isSome = true → s.outerCtx.isSome = true
  innerErrCtx : s.innerErr.isSome = true → s.innerCtx.isSome = true
  walkerErr : ∀ e, s.walker = .done (some e) → s.innerErr.isSome = true
  calls : ∀ cs, s.walker = .walking cs → ∀ c ∈ cs, c ∈ walkCalls w.root w.tree
  digs : ∀ d ∈ s.digesters, DigOk w s d
  collErr : ∀ e, s.collector = .done (some e) → s.outerErr.isSome = true
  collNil : s.collector = .done none → s.resultsClosed = true
  fetcherErr : s.fetcher.isDone = true → s.innerErr.isSome = true →
    s.outerErr.isSome = true
  collected : ∀ cs ∈ s.fileChecksums, md5SumFile w cs.Path = (cs.Checksum, none)
  conserve : s.innerErr = none →
    ((s.fileChecksums.map fileChecksum.Path : Multiset GoString)
        + (inflight s.digesters : Multiset GoString)
        + (s.walker.pending : Multiset GoString))
      = (regularPaths (walkCalls w.root w.tree) : Multiset GoString)

/-- A bound on the number of steps a digester has left, one path apart. -/
def Digester.fuel : Digester → Nat
  | .done _ => 0
  | .idle => 1
  | .sending _ => 2
  | .hashing _ => 3

/-- A bound on the number of steps left in a state: every step lowers it. -/
def fuel (s : State) : Nat :=
  (match s.parentErr with | none => 1 | some _ => 0)
  + (match s.walker with | .walking calls => 3 * calls.length + 1 | .done _ => 0)
  + (s.digesters.map Digester.fuel).sum
  + (match s.collector with | .running => 1 | .done _ => 0)
  + (match s.fetcher with | .waiting => 1 | .done _ => 0)

mutual
/-- The regular files under an entry of the tree, by path: what the
specification calls the regular files reachable from the root. -/
def regularFiles (path : GoString) : Node → List GoString
  | .leaf .regular => [path]
  | .leaf _ => []
  | .dir children => regularFilesIn path children
  | .unreadableDir _ => []
  | .lstatError _ => []
/-- The regular files under the entries of the directory `dir`. -/
def regularFilesIn (dir : GoString) : List (GoString × Node) → List GoString
  | [] => []
  | (name, child) :: rest => regularFiles (Join dir name) child ++ regularFilesIn dir rest
end

/-- A name a directory can list: not empty, without the separator `/`, and
neither `.` nor `..`. -/
def isRealName (name : GoString) : Bool :=
  decide (name ≠ [] ∧ 47 ∉ name ∧ name ≠ [46] ∧ name ≠ [46, 46])

/-- The names of the entries of one directory are distinct, and each is a
name a directory can list. -/
def namesOk (children : List (GoString × Node)) : Bool :=
  decide (children.map Prod.fst).Nodup && children.all (fun c => isRealName c.1)

mutual
/-- The tree is one a file system can hold: in every directory the names
are distinct, not empty, free of `/`, and neither `.` nor `..`. -/
def Node.wellFormed : Node → Bool
  | .dir children => namesOk children && childrenWellFormed children
  | _ => true
/-- Every entry of the list is well formed. -/
def childrenWellFormed : List (GoString × Node) → Bool
  | [] => true
  | (_, child) :: rest => child.wellFormed && childrenWellFormed rest
end

/-- What follows a path in the path of an entry below it: nothing, or a
separator and more. -/
def IsTail (suffix : GoString) : Prop := suffix = [] ∨ suffix.head? = some 47

/-- The path `filepath.Clean` builds from the elements it kept. -/
def cleanBody (rooted : Bool) (kept : List GoString) : GoString :=
  if rooted then 47 :: joinRev kept else joinRev kept

/-- The lists of elements `filepath.Clean` can hold, last first: no element
is empty, holds a separator or is `.`, and `..` stands only at the start of
a path that is not rooted. -/
def Canon (rooted : Bool) : List GoString → Prop
  | [] => True
  | e :: below =>
    Canon rooted below ∧ e ≠ [] ∧ 47 ∉ e ∧ e ≠ [46] ∧
      (e = [46, 46] → rooted = false ∧ ∀ x ∈ below, x = [46, 46])

/-- Below the directory `dir` the path of the entry `name` is `base`
followed by `name`, and it is a cleaned path. -/
def JoinsAs (dir base : GoString) : Prop :=
  ∀ name, isRealName name = true →
    Join dir name = base ++ name ∧
      ∃ rooted kept, Canon rooted (name :: kept) ∧
        base ++ name = cleanBody rooted (name :: kept)


/-- The error of a context cancelled by `cancel()` or by its deadline. -/
def cause (deadline : Bool) : GoError :=
  if deadline then .deadlineExceeded else .canceled

/-- The run meets no error of the file system: no invocation of the
callback carries an error and `md5SumFile` succeeds on every regular file
of the tree. -/
def NoIOError (w : World) : Prop :=
  (∀ c ∈ walkCalls w.root w.tree, c.err = none) ∧
  (∀ p ∈ regularFiles w.root w.tree, (md5SumFile w p).2 = none)

/-- In a world without errors of the file system every error in the state
is the error of the context passed to `checksumTree`. -/
structure CtxInv (s : State) : Prop where
  outerCtx : ∀ e, s.outerCtx = some e → s.parentErr = some e
  innerCtx : ∀ e, s.innerCtx = some e → s.parentErr = some e
  outerErr : ∀ e, s.outerErr = some e → s.parentErr = some e
  innerErr : ∀ e, s.innerErr = some e → s.parentErr = some e

/-- The action is a goroutine taking the branch `case <-ctx.Done()` of a
`select`: it observes the cancellation. -/
def Action.isCtxBranch : Action → Bool
  | .walkerCtx => true
  | .digCtx _ => true
  | .collCtx => true
  | _ => false

/-- In state `s` the action is the callback of the walker receiving a
traversal error, or `md5SumFile` failing in a digester. -/
def failsAt (w : World) (s : State) : Action → Bool
  | .walkerCall =>
    match s.walker with
    | .walking (c :: _) => c.err.isSome
    | _ => false
  | .digHash i =>
    match s.digesters[i]? with
    | some (.hashing path) => (md5SumFile w path).2.isSome
    | _ => false
  | _ => false

/-- No step of the run from `s` is the callback of the walker receiving a
traversal error or `md5SumFile` failing in a digester: no traversal or read
error occurs in the run. -/
def failFree (w : World) : State → List Action → Bool
  | _, [] => true
  | s, a :: rest =>
    !failsAt w s a &&
      (match step w s a with
       | some s1 => failFree w s1 rest
       | none => true)

/-- The line `main` prints for a record. -/
def line (fc : fileChecksum) : GoString := fc.Checksum ++ 32 :: (fc.Path ++ [10])

/-- What a digest holds after the bytes `data` have been written to a new
one. -/
def Absorbed (d : digest) (data : List Nat) : Prop :=
  d.s = (chunks 64 (data.length / 64) data).foldl md5Block md5Init ∧
    d.x = data.drop (64 * (data.length / 64)) ∧ d.len = data.length % 2 ^ 64

/-- The byte is a lowercase hexadecimal digit. -/
def isLowerHex (c : Nat) : Bool := (48 ≤ c && c ≤ 57) || (97 ≤ c && c ≤ 102)

/-! ## Sample runs -/

/-- Every digester receives from the closed `jobsCh` and returns. -/
def closeAll : List Action := (List.range maxDigesters).map Action.digClosed

/-- A file system in which only `a.txt`, `b.txt`, `sub/b.txt` and the
symbolic link `link` of the directory `d`, and `sub/b.txt` and `link` of
the current directory, can be opened; each holds `hello`, which `d/a.txt`
returns in two reads. -/
def helloFiles (p : GoString) : FileRead :=
  if p = ascii "d/a.txt" ∨ p = ascii "d/b.txt" ∨ p = ascii "d/sub/b.txt" ∨ p = ascii "d/link"
    ∨ p = ascii "sub/b.txt" ∨ p = ascii "link"
  then (if p = ascii "d/a.txt" then .content [ascii "hel", ascii "lo"]
    else .content [ascii "hello"])
  else .openFails (.os (ascii "no such file or directory"))

/-- An empty directory `d`. -/
def emptyWorld : World := ⟨ascii "d", .dir [], helloFiles⟩

/-- A directory `d` holding `sub/b.txt` and a symbolic link to it. -/
def linkWorld : World :=
  ⟨ascii "d", .dir [(ascii "link", .leaf .symlink),
    (ascii "sub", .dir [(ascii "b.txt", .leaf .regular)])], helloFiles⟩

/-- The current directory `.` holding `sub/b.txt` and a symbolic link to
it. -/
def dotWorld : World :=
  ⟨ascii ".", .dir [(ascii "link", .leaf .symlink),
    (ascii "sub", .dir [(ascii "b.txt", .leaf .regular)])], helloFiles⟩

/-- A directory `d` holding `a.txt` and `b.txt` with the same content. -/
def twoWorld : World :=
  ⟨ascii "d", .dir [(ascii "a.txt", .leaf .regular), (ascii "b.txt", .leaf .regular)],
    helloFiles⟩

/-- A directory `d` holding `a.txt` and a file `c.txt` that cannot be
opened. -/
def brokenWorld : World :=
  ⟨ascii "d", .dir [(ascii "a.txt", .leaf .regular), (ascii "c.txt", .leaf .regular)],
    helloFiles⟩

/-- A root whose `Lstat` fails. -/
def missingWorld : World :=
  ⟨ascii "d", .lstatError (.os (ascii "lstat d: no such file or directory")), helloFiles⟩

/-- The MD5 digest of `hello`, in hexadecimal. -/
def helloSum : GoString := ascii "5d41402abc4b2a76b9719d911017c592"

/-- A run on the empty directory whose context is cancelled before any
goroutine takes a step, and in which every `select` takes its channel. -/
def cancelledRun : List Action :=
  .cancel false :: .walkerCall :: .walkerReturn :: closeAll ++ [.fetcherReturn, .collClosed]

/-- A run on `linkWorld`: the link is skipped, `sub/b.txt` goes through
digester 2. -/
def linkRun : List Action :=
  [.walkerCall, .walkerCall, .walkerCall, .job 2, .walkerReturn, .digHash 2, .result 2]
    ++ closeAll ++ [.fetcherReturn, .collClosed]

/-- A run on `twoWorld` in which the record of `b.txt` reaches the
collector before the record of `a.txt`. -/
def runBA : List Action :=
  [.walkerCall, .job 0, .job 1, .walkerReturn, .digHash 1, .result 1, .digHash 0, .result 0]
    ++ closeAll ++ [.fetcherReturn, .collClosed]

/-- A run on `twoWorld` in which one digester handles both files in the
order of the walk, the collector returning last on the closed channel. -/
def runAB : List Action :=
  [.walkerCall, .job 7, .digHash 7, .result 7, .job 7, .digHash 7, .result 7, .walkerReturn]
    ++ closeAll ++ [.fetcherReturn, .collClosed]

/-- The steps of `brokenWorld` up to the failure: the record of `a.txt`
has reached the collector and digester 1 holds the path of `c.txt`. -/
def brokenStart : List Action :=
  [.walkerCall, .job 0, .digHash 0, .result 0, .job 1]

/-- The steps of `brokenWorld` after `md5SumFile` has failed: the other
goroutines leave through `ctx.Done()`. -/
def brokenEnd : List Action :=
  .walkerReturn :: .digCtx 0 :: ((List.range 18).map (fun i => Action.digCtx (i + 2)))
    ++ [.fetcherReturn, .collCtx]

/-- A run on `missingWorld`: the callback receives the error of `Lstat`. -/
def missingRun : List Action :=
  .walkerCall :: ((List.range maxDigesters).map Action.digCtx) ++ [.fetcherReturn, .collCtx]

/-- A run on `brokenWorld` cancelled at once: the walker leaves through
`ctx.Done()` at `a.txt`, before it reaches `c.txt`, and so do the digesters
and the collector. -/
def brokenCancelledRun : List Action :=
  [.cancel false, .walkerCall, .walkerCtx, .collCtx]
    ++ ((List.range maxDigesters).map Action.digCtx) ++ [.fetcherReturn]


/-- A run on `twoWorld` with a pool of one digester. -/
def runOne : List Action :=
  [.walkerCall, .job 0, .digHash 0, .result 0, .job 0, .digHash 0, .result 0, .walkerReturn,
    .digClosed 0, .fetcherReturn, .collClosed]

/-! # Verification -/

/-! ## The order on strings -/

theorem strLess_irrefl (a : GoString) : strLess a a = false := by
  induction a with
  | nil => rfl
  | cons x xs ih => simp [strLess, ih]

theorem strLess_asymm : ∀ (a b : GoString), strLess a b = true → strLess b a = false
  | [], [] => by simp [strLess]
  | [], _ :: _ => by simp [strLess]
  | _ :: _, [] => by simp [strLess]
  | x :: xs, y :: ys => by
    have ih := strLess_asymm xs ys
    simp only [strLess]
    split_ifs <;> first | omega | simp_all

theorem strLess_trans : ∀ (a b c : GoString),
    strLess a b = true → strLess b c = true → strLess a c = true
  | [], [], _ => by simp [strLess]
  | [], _ :: _, [] => by simp [strLess]
  | [], _ :: _, _ :: _ => by simp [strLess]
  | _ :: _, [], _ => by simp [strLess]
  | _ :: _, _ :: _, [] => by simp [strLess]
  | x :: xs, y :: ys, z :: zs => by
    have ih := strLess_trans xs ys zs
    simp only [strLess]
    split_ifs <;> simp_all <;> omega

theorem strLess_connex : ∀ (a b : GoString),
    strLess a b = false → strLess b a = false → a = b
  | [], [] => by simp
  | [], _ :: _ => by simp [strLess]
  | _ :: _, [] => by simp [strLess]
  | x :: xs, y :: ys => by
    have ih := strLess_connex xs ys
    intro h1 h2
    have hxy : ¬ x < y := fun h => by simp [strLess, h] at h1
    have hyx : ¬ y < x := fun h => by simp [strLess, h] at h2
    have hx : x = y := by omega
    subst hx
    simp only [strLess, hxy, if_false] at h1 h2
    rw [ih h1 h2]

theorem strLess_negtrans (a b c : GoString)
    (hab : strLess a b = false) (hbc : strLess b c = false) : strLess a c = false := by
  by_contra h
  have hac : strLess a c = true := by simpa using h
  by_cases hba : strLess b a = true
  · have := strLess_trans b a c hba hac
    simp [this] at hbc
  · have hba' : strLess b a = false := by simpa using hba
    have := strLess_connex a b hab hba'
    subst this
    simp [hac] at hbc

/-! ## sort.Slice -/

theorem insertLeft_perm {α : Type} (less : α → α → Bool) (x : α) (l : List α) :
    (insertLeft less x l).Perm (x :: l) := by
  induction l with
  | nil => simp [insertLeft]
  | cons y rest ih =>
    simp only [insertLeft]
    split
    · exact (List.Perm.cons y ih).trans (List.Perm.swap x y rest)
    · exact List.Perm.refl _

theorem sortSlice_perm {α : Type} (less : α → α → Bool) (data : List α) :
    (sortSlice less data).Perm data := by
  have h : ∀ (l acc : List α),
      (l.foldl (fun sortedRev x => insertLeft less x sortedRev) acc).Perm (l.reverse ++ acc) := by
    intro l
    induction l with
    | nil => intro acc; simp
    | cons x xs ih =>
      intro acc
      simp only [List.foldl_cons, List.reverse_cons, List.append_assoc, List.singleton_append]
      exact (ih _).trans (List.Perm.append_left _ (insertLeft_perm less x acc))
  have h1 := h data []
  simp only [List.append_nil] at h1
  exact (List.reverse_perm _).trans (h1.trans (List.reverse_perm _))

theorem insertLeft_pairwise {α : Type} (less : α → α → Bool)
    (hasymm : ∀ a b, less a b = true → less b a = false)
    (hneg : ∀ a b c, less a b = false → less b c = false → less a c = false)
    (x : α) (l : List α) (hl : l.Pairwise (fun a b => less a b = false)) :
    (insertLeft less x l).Pairwise (fun a b => less a b = false) := by
  induction l with
  | nil => simp [insertLeft]
  | cons y rest ih =>
    rw [List.pairwise_cons] at hl
    simp only [insertLeft]
    split
    · rename_i hxy
      rw [List.pairwise_cons]
      refine ⟨fun z hz => ?_, ih hl.2⟩
      rcases List.mem_cons.mp ((insertLeft_perm less x rest).mem_iff.mp hz) with hz1 | hz1
      · rw [hz1]; exact hasymm _ _ hxy
      · exact hl.1 z hz1
    · rename_i hxy
      have hxy1 : less x y = false := by simpa using hxy
      rw [List.pairwise_cons]
      refine ⟨fun z hz => ?_, List.pairwise_cons.mpr hl⟩
      rcases List.mem_cons.mp hz with hz1 | hz1
      · rw [hz1]; exact hxy1
      · exact hneg _ _ _ hxy1 (hl.1 z hz1)

theorem sortSlice_pairwise {α : Type} (less : α → α → Bool)
    (hasymm : ∀ a b, less a b = true → less b a = false)
    (hneg : ∀ a b c, less a b = false → less b c = false → less a c = false)
    (data : List α) :
    (sortSlice less data).Pairwise (fun a b => less b a = false) := by
  have h : ∀ (l acc : List α), acc.Pairwise (fun a b => less a b = false) →
      (l.foldl (fun sortedRev x => insertLeft less x sortedRev) acc).Pairwise
        (fun a b => less a b = false) := by
    intro l
    induction l with
    | nil => intro acc hacc; simpa using hacc
    | cons x xs ih =>
      intro acc hacc
      exact ih _ (insertLeft_pairwise less hasymm hneg x acc hacc)
  unfold sortSlice
  rw [List.pairwise_reverse]
  exact h data [] List.Pairwise.nil

theorem lessByPath_asymm (a b : fileChecksum) :
    lessByPath a b = true → lessByPath b a = false :=
  strLess_asymm a.Path b.Path

theorem lessByPath_negtrans (a b c : fileChecksum) :
    lessByPath a b = false → lessByPath b c = false → lessByPath a c = false :=
  strLess_negtrans a.Path b.Path c.Path

/-- The list `sort.Slice` leaves is in ascending order of `Path`. -/
theorem sortSlice_sorted (data : List fileChecksum) :
    (sortSlice lessByPath data).Pairwise (fun a b => strLe a.Path b.Path = true) := by
  have h := sortSlice_pairwise lessByPath lessByPath_asymm lessByPath_negtrans data
  refine h.imp ?_
  intro a b hab
  simpa [strLe, lessByPath] using hab

/-- On records with distinct paths the ascending order determines the list:
every sorted permutation of `data` is `sortSlice lessByPath data`. -/
theorem sortSlice_unique (data out : List fileChecksum)
    (hnodup : (data.map fileChecksum.Path).Nodup)
    (hperm : out.Perm data)
    (hsorted : out.Pairwise (fun a b => strLe a.Path b.Path = true)) :
    out = sortSlice lessByPath data := by
  have strict : ∀ l : List fileChecksum, l.Perm data →
      l.Pairwise (fun a b => strLe a.Path b.Path = true) →
      l.Pairwise (fun a b => strLess a.Path b.Path = true) := by
    intro l hl hs
    have hnd : (l.map fileChecksum.Path).Nodup := (hl.map _).nodup_iff.mpr hnodup
    rw [List.Nodup, List.pairwise_map] at hnd
    refine (hs.and hnd).imp ?_
    intro a b hab
    by_contra hlt
    have h1 : strLess a.Path b.Path = false := by simpa using hlt
    have h2 : strLess b.Path a.Path = false := by simpa [strLe] using hab.1
    exact hab.2 (strLess_connex _ _ h1 h2)
  have hanti : IsAntisymm fileChecksum (fun a b => strLess a.Path b.Path = true) :=
    ⟨fun a b hab hba => by simp [strLess_asymm _ _ hab] at hba⟩
  exact List.eq_of_perm_of_sorted (hperm.trans (sortSlice_perm _ _).symm)
    (strict out hperm hsorted)
    (strict _ (sortSlice_perm _ _) (sortSlice_sorted data))

/-! ## The steps, one by one -/

theorem step_cancel {w : World} {s s1 : State} {deadline : Bool}
    (h : step w s (.cancel deadline) = some s1) :
    s.parentErr = none ∧ ∃ err : GoError, err = cause deadline ∧
      s1 = { s with parentErr := some err,
                    outerCtx := firstErr s.outerCtx (some err),
                    innerCtx := firstErr s.innerCtx (some err) } := by
  simp only [step] at h
  split at h
  · simp at h
  · rename_i hp
    exact ⟨hp, cause deadline, rfl, by simpa [cause] using h.symm⟩

theorem step_walkerCall {w : World} {s s1 : State}
    (h : step w s .walkerCall = some s1) :
    ∃ c rest, s.walker = .walking (c :: rest) ∧
      ((∃ err, c.err = some err ∧ s1 = walkerReturns (some err) s) ∨
       (c.err = none ∧ isRegularCall c = false ∧
          s1 = { s with walker := .walking rest })) := by
  simp only [step] at h
  split at h
  · rename_i c rest hw
    refine ⟨c, rest, hw, ?_⟩
    split at h
    · rename_i err he
      exact Or.inl ⟨err, he, by simpa using h.symm⟩
    · simp at h
    · rename_i he hm
      refine Or.inr ⟨he, ?_, by simpa using h.symm⟩
      simp only [isRegularCall]
      split
      · rename_i he1 hm1
        exact absurd hm1 hm
      · rfl
  · simp at h

theorem step_walkerReturn {w : World} {s s1 : State}
    (h : step w s .walkerReturn = some s1) :
    s.walker = .walking [] ∧ s1 = walkerReturns none s := by
  simp only [step] at h
  split at h
  · rename_i hw
    exact ⟨hw, by simpa using h.symm⟩
  · simp at h

theorem step_walkerCtx {w : World} {s s1 : State}
    (h : step w s .walkerCtx = some s1) :
    ∃ c rest err, s.walker = .walking (c :: rest) ∧ isRegularCall c = true ∧
      s.innerCtx = some err ∧ s1 = walkerReturns (some err) s := by
  simp only [step] at h
  split at h
  · rename_i c rest hw
    split at h
    · rename_i err he hm hctx
      exact ⟨c, rest, err, hw, by simp [isRegularCall, he, hm], hctx, by simpa using h.symm⟩
    · simp at h
  · simp at h

theorem step_job {w : World} {s s1 : State} {i : Nat}
    (h : step w s (.job i) = some s1) :
    ∃ c rest, s.walker = .walking (c :: rest) ∧ isRegularCall c = true ∧
      s.digesters[i]? = some .idle ∧
      s1 = { s with walker := .walking rest,
                    digesters := s.digesters.set i (.hashing c.path) } := by
  simp only [step] at h
  split at h
  · rename_i c rest hw hd
    split at h
    · rename_i he hm
      exact ⟨c, rest, hw, by simp [isRegularCall, he, hm], hd, by simpa using h.symm⟩
    · simp at h
  · simp at h

theorem step_digCtx {w : World} {s s1 : State} {i : Nat}
    (h : step w s (.digCtx i) = some s1) :
    ∃ d err, s.digesters[i]? = some d ∧ (d = .idle ∨ ∃ cs, d = .sending cs) ∧
      s.innerCtx = some err ∧ s1 = digesterReturns i (some err) s := by
  simp only [step] at h
  split at h
  · rename_i err hd hctx
    exact ⟨_, err, hd, Or.inl rfl, hctx, by simpa using h.symm⟩
  · rename_i cs err hd hctx
    exact ⟨_, err, hd, Or.inr ⟨cs, rfl⟩, hctx, by simpa using h.symm⟩
  · simp at h

theorem step_digClosed {w : World} {s s1 : State} {i : Nat}
    (h : step w s (.digClosed i) = some s1) :
    s.digesters[i]? = some .idle ∧ s.jobsClosed = true ∧
      s1 = digesterReturns i none s := by
  simp only [step] at h
  split at h
  · rename_i hd hj
    exact ⟨hd, hj, by simpa using h.symm⟩
  · simp at h

theorem step_digHash {w : World} {s s1 : State} {i : Nat}
    (h : step w s (.digHash i) = some s1) :
    ∃ path, s.digesters[i]? = some (.hashing path) ∧
      ((∃ err, (md5SumFile w path).2 = some err ∧ s1 = digesterReturns i (some err) s) ∨
       (∃ sum, md5SumFile w path = (sum, none) ∧
          s1 = { s with digesters := s.digesters.set i (.sending ⟨path, sum⟩) })) := by
  simp only [step] at h
  split at h
  · rename_i path hd
    refine ⟨path, hd, ?_⟩
    split at h
    · rename_i err hm
      exact Or.inl ⟨err, by simp [hm], by simpa using h.symm⟩
    · rename_i sum hm
      exact Or.inr ⟨sum, hm, by simpa using h.symm⟩
  · simp at h

theorem step_result {w : World} {s s1 : State} {i : Nat}
    (h : step w s (.result i) = some s1) :
    ∃ cs, s.digesters[i]? = some (.sending cs) ∧ s.collector = .running ∧
      s1 = { s with digesters := s.digesters.set i .idle,
                    fileChecksums := s.fileChecksums ++ [cs] } := by
  simp only [step] at h
  split at h
  · rename_i cs hd hc
    exact ⟨cs, hd, hc, by simpa using h.symm⟩
  · simp at h

theorem step_collCtx {w : World} {s s1 : State}
    (h : step w s .collCtx = some s1) :
    ∃ err, s.collector = .running ∧ s.outerCtx = some err ∧
      s1 = returnOuter (some err) { s with collector := .done (some err) } := by
  simp only [step] at h
  split at h
  · rename_i err hc hctx
    exact ⟨err, hc, hctx, by simpa using h.symm⟩
  · simp at h

theorem step_collClosed {w : World} {s s1 : State}
    (h : step w s .collClosed = some s1) :
    s.collector = .running ∧ s.resultsClosed = true ∧
      s1 = { s with collector := .done none } := by
  simp only [step] at h
  split at h
  · rename_i hc hr
    exact ⟨hc, hr, by simpa using h.symm⟩
  · simp at h

theorem step_fetcherReturn {w : World} {s s1 : State}
    (h : step w s .fetcherReturn = some s1) :
    s.fetcher = .waiting ∧ s.walker.isDone = true ∧
      (∀ d ∈ s.digesters, d.isDone = true) ∧
      s1 = returnOuter s.innerErr
        { s with fetcher := .done s.innerErr, resultsClosed := true } := by
  simp only [step] at h
  split at h
  · rename_i hf
    split at h
    · rename_i hall
      refine ⟨hf, hall.1, ?_, by simpa using h.symm⟩
      simpa using hall.2
    · simp at h
  · simp at h

/-! ## Lists of digesters -/

theorem set_split {α : Type} {l : List α} {i : Nat} {d : α} (h : l[i]? = some d) :
    ∃ pre post, l = pre ++ d :: post ∧ ∀ d1, l.set i d1 = pre ++ d1 :: post := by
  obtain ⟨hi, hd⟩ := List.getElem?_eq_some.mp h
  refine ⟨l.take i, l.drop (i + 1), ?_, fun d1 => ?_⟩
  · rw [← hd, List.getElem_cons_drop, List.take_append_drop]
  · rw [List.set_eq_take_append_cons_drop, if_pos hi]

theorem inflight_set {l : List Digester} {i : Nat} {d : Digester} (h : l[i]? = some d)
    (d1 : Digester) :
    ((inflight (l.set i d1) : Multiset GoString) + (d.inflight : Multiset GoString))
      = (inflight l : Multiset GoString) + (d1.inflight : Multiset GoString) := by
  obtain ⟨pre, post, hl, hset⟩ := set_split h
  rw [hset d1, hl]
  simp only [inflight, List.flatMap_append, List.flatMap_cons, ← Multiset.coe_add]
  abel

theorem fuel_set {l : List Digester} {i : Nat} {d : Digester} (h : l[i]? = some d)
    (d1 : Digester) :
    ((l.set i d1).map Digester.fuel).sum + d.fuel = (l.map Digester.fuel).sum + d1.fuel := by
  obtain ⟨pre, post, hl, hset⟩ := set_split h
  rw [hset d1, hl]
  simp only [List.map_append, List.map_cons, List.sum_append, List.sum_cons]
  omega

/-! ## The invariant -/

@[simp] theorem firstErr_some (e : GoError) (o : Option GoError) :
    firstErr (some e) o = some e := rfl

@[simp] theorem firstErr_none (o : Option GoError) : firstErr none o = o := rfl

@[simp] theorem firstErr_isSome (a : Option GoError) (e : GoError) :
    (firstErr a (some e)).isSome = true := by
  cases a <;> rfl

theorem firstErr_of_isSome {a : Option GoError} (h : a.isSome = true) (o : Option GoError) :
    firstErr a o = a := by
  cases a with
  | none => simp at h
  | some e => rfl

theorem DigOk.mono {w : World} {s s1 : State} {d : Digester} (h : DigOk w s d)
    (hj : s.jobsClosed = true → s1.jobsClosed = true)
    (he : s.innerErr.isSome = true → s1.innerErr.isSome = true) : DigOk w s1 d := by
  cases d with
  | idle => trivial
  | hashing path => exact h
  | sending cs => exact h
  | done ret =>
    cases ret with
    | none => exact hj h
    | some e => exact he h

theorem inflight_replicate_idle (n : Nat) : inflight (List.replicate n .idle) = [] := by
  induction n with
  | zero => rfl
  | succ n ih => simp [inflight, List.replicate_succ, Digester.inflight]

theorem inv_init (w : World) (k : Nat) : Inv w (initWith w k) := by
  refine ⟨rfl, rfl, ?_, ?_, ?_, ?_, ?_, ?_, ?_, ?_, ?_, ?_, ?_, ?_, ?_⟩
  all_goals
    simp [initWith, Walker.isDone, Fetcher.isDone, Walker.pending, inflight_replicate_idle,
      DigOk]

theorem inv_cancel {w : World} {s s1 : State} {deadline : Bool} (hI : Inv w s)
    (h : step w s (.cancel deadline) = some s1) : Inv w s1 := by
  obtain ⟨hp, cause, -, rfl⟩ := step_cancel h
  obtain ⟨jobs, results, waited, parentCtx, outerInner, outerErrCtx, innerErrCtx, walkerErr,
    calls, digs, collErr, collNil, fetcherErr, collected, conserve⟩ := hI
  refine ⟨jobs, results, waited, ?_, ?_, ?_, ?_, walkerErr, calls, ?_, collErr, collNil,
    fetcherErr, collected, conserve⟩
  · simp
  · simp
  · simp
  · simp
  · exact fun d hd => (digs d hd).mono id id

@[simp] theorem firstErr_ne_none (a : Option GoError) (e : GoError) :
    firstErr a (some e) ≠ none := by
  cases a <;> simp [firstErr]

theorem fetcher_waiting_of_walking {w : World} {s : State} (hI : Inv w s)
    {cs : List WalkCall} (hw : s.walker = .walking cs) : s.fetcher.isDone = false := by
  by_contra hf
  have := (hI.waited (by simpa using hf)).1
  simp [hw, Walker.isDone] at this

theorem fetcher_waiting_of_digester {w : World} {s : State} (hI : Inv w s)
    {i : Nat} {d : Digester} (hd : s.digesters[i]? = some d) (hnd : d.isDone = false) :
    s.fetcher.isDone = false := by
  by_contra hf
  have := (hI.waited (by simpa using hf)).2 d (List.getElem?_mem hd)
  simp [hnd] at this

theorem collector_of_fetcher_waiting {w : World} {s : State} (hI : Inv w s)
    (hf : s.fetcher.isDone = false) : s.collector ≠ .done none := by
  intro hc
  have := hI.collNil hc
  simp [hI.results, hf] at this

theorem inv_walkerCall {w : World} {s s1 : State} (hI : Inv w s)
    (h : step w s .walkerCall = some s1) : Inv w s1 := by
  obtain ⟨c, rest, hw, ⟨err, herr, rfl⟩ | ⟨hnone, hreg, rfl⟩⟩ := step_walkerCall h
  all_goals
    have hf := fetcher_waiting_of_walking hI hw
    have hcn := collector_of_fetcher_waiting hI hf
    obtain ⟨jobs, results, waited, parentCtx, outerInner, outerErrCtx, innerErrCtx, walkerErr,
      calls, digs, collErr, collNil, fetcherErr, collected, conserve⟩ := id hI
  · constructor
    case digs =>
      exact fun d hd => (digs d hd).mono (fun _ => rfl)
        (fun _ => by simp [walkerReturns, returnInner])
    all_goals try simp [walkerReturns, returnInner, Walker.isDone, hf, hcn, jobs, results, hw]
    all_goals try assumption
  · constructor
    case digs => exact fun d hd => (digs d hd).mono id id
    case calls =>
      intro cs hcs c1 hc1
      simp only [Walker.walking.injEq] at hcs
      subst hcs
      exact calls _ hw c1 (List.mem_cons_of_mem _ hc1)
    case conserve =>
      intro hie
      have := conserve hie
      simpa [hw, Walker.pending, regularPaths, hreg] using this
    all_goals try simp [Walker.isDone, hf, hcn, jobs, results, hw]
    all_goals try assumption

theorem inv_walkerReturn {w : World} {s s1 : State} (hI : Inv w s)
    (h : step w s .walkerReturn = some s1) : Inv w s1 := by
  obtain ⟨hw, rfl⟩ := step_walkerReturn h
  have hf := fetcher_waiting_of_walking hI hw
  have hcn := collector_of_fetcher_waiting hI hf
  obtain ⟨jobs, results, waited, parentCtx, outerInner, outerErrCtx, innerErrCtx, walkerErr,
    calls, digs, collErr, collNil, fetcherErr, collected, conserve⟩ := id hI
  constructor
  case digs => exact fun d hd => (digs d hd).mono (fun _ => rfl) id
  case conserve =>
    intro hie
    have := conserve hie
    simpa [hw, Walker.pending, regularPaths, walkerReturns, returnInner] using this
  all_goals try simp [walkerReturns, returnInner, Walker.isDone, hf, hcn, jobs, results, hw]
  all_goals try assumption

theorem inv_walkerCtx {w : World} {s s1 : State} (hI : Inv w s)
    (h : step w s .walkerCtx = some s1) : Inv w s1 := by
  obtain ⟨c, rest, err, hw, hreg, hctx, rfl⟩ := step_walkerCtx h
  have hf := fetcher_waiting_of_walking hI hw
  have hcn := collector_of_fetcher_waiting hI hf
  obtain ⟨jobs, results, waited, parentCtx, outerInner, outerErrCtx, innerErrCtx, walkerErr,
    calls, digs, collErr, collNil, fetcherErr, collected, conserve⟩ := id hI
  constructor
  case digs =>
    exact fun d hd => (digs d hd).mono (fun _ => rfl)
      (fun _ => by simp [walkerReturns, returnInner])
  all_goals try simp [walkerReturns, returnInner, Walker.isDone, hf, hcn, jobs, results, hw]
  all_goals try assumption

theorem mem_regularPaths {calls : List WalkCall} {c : WalkCall} (hc : c ∈ calls)
    (hreg : isRegularCall c = true) : c.path ∈ regularPaths calls :=
  List.mem_map.mpr ⟨c, List.mem_filter.mpr ⟨hc, hreg⟩, rfl⟩

theorem inv_job {w : World} {s s1 : State} {i : Nat} (hI : Inv w s)
    (h : step w s (.job i) = some s1) : Inv w s1 := by
  obtain ⟨c, rest, hw, hreg, hd, rfl⟩ := step_job h
  have hf := fetcher_waiting_of_walking hI hw
  have hcn := collector_of_fetcher_waiting hI hf
  obtain ⟨jobs, results, waited, parentCtx, outerInner, outerErrCtx, innerErrCtx, walkerErr,
    calls, digs, collErr, collNil, fetcherErr, collected, conserve⟩ := id hI
  constructor
  case digs =>
    intro d hdm
    rcases List.mem_or_eq_of_mem_set hdm with hold | rfl
    · exact (digs d hold).mono id id
    · exact mem_regularPaths (calls _ hw c (List.mem_cons_self _ _)) hreg
  case calls =>
    intro cs hcs c1 hc1
    simp only [Walker.walking.injEq] at hcs
    subst hcs
    exact calls _ hw c1 (List.mem_cons_of_mem _ hc1)
  case conserve =>
    intro hie
    have e1 := conserve hie
    have e2 := inflight_set hd (.hashing c.path)
    simp only [Digester.inflight, Multiset.coe_nil, add_zero] at e2
    have e3 : (s.walker.pending : Multiset GoString)
        = ([c.path] : Multiset GoString) + (regularPaths rest : Multiset GoString) := by
      simp [hw, Walker.pending, regularPaths, hreg]
    show _ + (inflight (s.digesters.set i (.hashing c.path)) : Multiset GoString)
      + ((Walker.walking rest).pending : Multiset GoString) = _
    rw [e2, ← e1, e3]
    simp only [Walker.pending]
    abel
  all_goals try simp [Walker.isDone, hf, hcn, jobs, results, hw]
  all_goals try assumption

theorem inv_digCtx {w : World} {s s1 : State} {i : Nat} (hI : Inv w s)
    (h : step w s (.digCtx i) = some s1) : Inv w s1 := by
  obtain ⟨d, err, hd, hkind, hctx, rfl⟩ := step_digCtx h
  have hnd : d.isDone = false := by
    rcases hkind with rfl | ⟨cs, rfl⟩ <;> rfl
  have hf := fetcher_waiting_of_digester hI hd hnd
  have hcn := collector_of_fetcher_waiting hI hf
  obtain ⟨jobs, results, waited, parentCtx, outerInner, outerErrCtx, innerErrCtx, walkerErr,
    calls, digs, collErr, collNil, fetcherErr, collected, conserve⟩ := id hI
  constructor
  case digs =>
    intro d1 hdm
    rcases List.mem_or_eq_of_mem_set hdm with hold | rfl
    · exact (digs d1 hold).mono id (fun _ => by simp [digesterReturns, returnInner])
    · simp [DigOk, digesterReturns, returnInner]
  all_goals try simp [digesterReturns, returnInner, hf, hcn, jobs, results]
  all_goals try assumption

theorem inv_digClosed {w : World} {s s1 : State} {i : Nat} (hI : Inv w s)
    (h : step w s (.digClosed i) = some s1) : Inv w s1 := by
  obtain ⟨hd, hj, rfl⟩ := step_digClosed h
  have hf := fetcher_waiting_of_digester hI hd rfl
  have hcn := collector_of_fetcher_waiting hI hf
  obtain ⟨jobs, results, waited, parentCtx, outerInner, outerErrCtx, innerErrCtx, walkerErr,
    calls, digs, collErr, collNil, fetcherErr, collected, conserve⟩ := id hI
  constructor
  case digs =>
    intro d1 hdm
    rcases List.mem_or_eq_of_mem_set hdm with hold | rfl
    · exact (digs d1 hold).mono id id
    · exact hj
  case conserve =>
    intro hie
    have e1 := conserve hie
    have e2 := inflight_set hd (.done none)
    simp only [Digester.inflight, Multiset.coe_nil, add_zero] at e2
    show _ + (inflight (s.digesters.set i (.done none)) : Multiset GoString) + _ = _
    rw [e2]
    exact e1
  all_goals try simp [digesterReturns, returnInner, hf, hcn, results]
  all_goals try assumption

theorem inv_digHash {w : World} {s s1 : State} {i : Nat} (hI : Inv w s)
    (h : step w s (.digHash i) = some s1) : Inv w s1 := by
  obtain ⟨path, hd, ⟨err, herr, rfl⟩ | ⟨sum, hsum, rfl⟩⟩ := step_digHash h
  all_goals
    have hf := fetcher_waiting_of_digester hI hd rfl
    have hcn := collector_of_fetcher_waiting hI hf
    obtain ⟨jobs, results, waited, parentCtx, outerInner, outerErrCtx, innerErrCtx, walkerErr,
      calls, digs, collErr, collNil, fetcherErr, collected, conserve⟩ := id hI
  · constructor
    case digs =>
      intro d1 hdm
      rcases List.mem_or_eq_of_mem_set hdm with hold | rfl
      · exact (digs d1 hold).mono id (fun _ => by simp [digesterReturns, returnInner])
      · simp [DigOk, digesterReturns, returnInner]
    all_goals try simp [digesterReturns, returnInner, hf, hcn, jobs, results]
    all_goals try assumption
  · constructor
    case digs =>
      intro d1 hdm
      rcases List.mem_or_eq_of_mem_set hdm with hold | rfl
      · exact (digs d1 hold).mono id id
      · exact ⟨digs _ (List.getElem?_mem hd), hsum⟩
    case conserve =>
      intro hie
      have e1 := conserve hie
      have e2 := inflight_set hd (.sending ⟨path, sum⟩)
      simp only [Digester.inflight, add_left_inj] at e2
      show _ + (inflight (s.digesters.set i (.sending ⟨path, sum⟩)) : Multiset GoString) + _ = _
      rw [e2]
      exact e1
    all_goals try simp [hf, hcn, jobs, results]
    all_goals try assumption

theorem inv_result {w : World} {s s1 : State} {i : Nat} (hI : Inv w s)
    (h : step w s (.result i) = some s1) : Inv w s1 := by
  obtain ⟨cs, hd, hc, rfl⟩ := step_result h
  have hf := fetcher_waiting_of_digester hI hd rfl
  obtain ⟨jobs, results, waited, parentCtx, outerInner, outerErrCtx, innerErrCtx, walkerErr,
    calls, digs, collErr, collNil, fetcherErr, collected, conserve⟩ := id hI
  constructor
  case digs =>
    intro d1 hdm
    rcases List.mem_or_eq_of_mem_set hdm with hold | rfl
    · exact (digs d1 hold).mono id id
    · trivial
  case collected =>
    intro cs1 hcs1
    rcases List.mem_append.mp hcs1 with hold | hnew
    · exact collected cs1 hold
    · rw [List.mem_singleton.mp hnew]
      exact (digs _ (List.getElem?_mem hd)).2
  case conserve =>
    intro hie
    have e1 := conserve hie
    have e2 := inflight_set hd .idle
    simp only [Digester.inflight, Multiset.coe_nil, add_zero] at e2
    show ((s.fileChecksums ++ [cs]).map fileChecksum.Path : Multiset GoString)
      + (inflight (s.digesters.set i .idle) : Multiset GoString) + _ = _
    rw [← e1, ← e2]
    simp only [List.map_append, List.map_cons, List.map_nil, ← Multiset.coe_add]
    abel
  all_goals try simp [hf, hc, jobs, results]
  all_goals try assumption

theorem inv_collCtx {w : World} {s s1 : State} (hI : Inv w s)
    (h : step w s .collCtx = some s1) : Inv w s1 := by
  obtain ⟨err, hc, hctx, rfl⟩ := step_collCtx h
  obtain ⟨jobs, results, waited, parentCtx, outerInner, outerErrCtx, innerErrCtx, walkerErr,
    calls, digs, collErr, collNil, fetcherErr, collected, conserve⟩ := id hI
  constructor
  case digs => exact fun d hd => (digs d hd).mono id id
  case conserve => exact conserve
  all_goals try simp [returnOuter, hc]
  all_goals try assumption

theorem inv_collClosed {w : World} {s s1 : State} (hI : Inv w s)
    (h : step w s .collClosed = some s1) : Inv w s1 := by
  obtain ⟨hc, hr, rfl⟩ := step_collClosed h
  obtain ⟨jobs, results, waited, parentCtx, outerInner, outerErrCtx, innerErrCtx, walkerErr,
    calls, digs, collErr, collNil, fetcherErr, collected, conserve⟩ := id hI
  constructor
  case digs => exact fun d hd => (digs d hd).mono id id
  case conserve => exact conserve
  case collNil => exact fun _ => hr
  all_goals try simp [hc]
  all_goals try assumption

theorem returnOuter_frame (r : Option GoError) (s : State) :
    (returnOuter r s).parentErr = s.parentErr ∧ (returnOuter r s).innerErr = s.innerErr ∧
    (returnOuter r s).jobsClosed = s.jobsClosed ∧
    (returnOuter r s).resultsClosed = s.resultsClosed ∧
    (returnOuter r s).walker = s.walker ∧ (returnOuter r s).digesters = s.digesters ∧
    (returnOuter r s).collector = s.collector ∧ (returnOuter r s).fetcher = s.fetcher ∧
    (returnOuter r s).fileChecksums = s.fileChecksums := by
  cases r <;> simp [returnOuter]

theorem inv_fetcherReturn {w : World} {s s1 : State} (hI : Inv w s)
    (h : step w s .fetcherReturn = some s1) : Inv w s1 := by
  obtain ⟨hf, hw, hds, rfl⟩ := step_fetcherReturn h
  obtain ⟨jobs, results, waited, parentCtx, outerInner, outerErrCtx, innerErrCtx, walkerErr,
    calls, digs, collErr, collNil, fetcherErr, collected, conserve⟩ := id hI
  obtain ⟨f1, f2, f3, f4, f5, f6, f7, f8, f9⟩ := returnOuter_frame s.innerErr
    { s with fetcher := .done s.innerErr, resultsClosed := true }
  constructor
  case digs =>
    intro d hd
    rw [f6] at hd
    exact (digs d hd).mono (fun hj => by rw [f3]; exact hj) (fun he => by rw [f2]; exact he)
  case walkerErr =>
    intro e he
    rw [f5] at he
    rw [f2]
    exact walkerErr e he
  case conserve =>
    intro hie
    rw [f2] at hie
    rw [f9, f6, f5]
    exact conserve hie
  case jobs => rw [f3, f5]; exact jobs
  case results => rw [f4, f8]; rfl
  case waited =>
    intro _
    rw [f5, f6]
    exact ⟨hw, hds⟩
  case calls => rw [f5]; exact calls
  case collNil => intro _; rw [f4]
  case collected => rw [f9]; exact collected
  all_goals
    cases hie : s.innerErr
    all_goals try simp [returnOuter, Fetcher.isDone, hie]
    all_goals try assumption

theorem inv_step {w : World} {s s1 : State} {a : Action} (hI : Inv w s)
    (h : step w s a = some s1) : Inv w s1 := by
  cases a with
  | cancel deadline => exact inv_cancel hI h
  | walkerCall => exact inv_walkerCall hI h
  | walkerReturn => exact inv_walkerReturn hI h
  | walkerCtx => exact inv_walkerCtx hI h
  | job i => exact inv_job hI h
  | digCtx i => exact inv_digCtx hI h
  | digClosed i => exact inv_digClosed hI h
  | digHash i => exact inv_digHash hI h
  | result i => exact inv_result hI h
  | collCtx => exact inv_collCtx hI h
  | collClosed => exact inv_collClosed hI h
  | fetcherReturn => exact inv_fetcherReturn hI h

theorem run_cons {w : World} {s s2 : State} {a : Action} {acts : List Action}
    (h : run w s (a :: acts) = some s2) :
    ∃ s1, step w s a = some s1 ∧ run w s1 acts = some s2 := by
  simp only [run] at h
  split at h
  · rename_i s1 hs
    exact ⟨s1, hs, h⟩
  · simp at h

theorem run_append {w : World} {s s1 s2 : State} {acts more : List Action}
    (h1 : run w s acts = some s1) (h2 : run w s1 more = some s2) :
    run w s (acts ++ more) = some s2 := by
  induction acts generalizing s with
  | nil =>
    simp only [run, Option.some.injEq] at h1
    subst h1
    exact h2
  | cons a rest ih =>
    obtain ⟨s0, hs, hr⟩ := run_cons h1
    simp only [List.cons_append, run, hs]
    exact ih hr

theorem inv_run {w : World} {s s1 : State} {acts : List Action} (hI : Inv w s)
    (h : run w s acts = some s1) : Inv w s1 := by
  induction acts generalizing s with
  | nil =>
    simp only [run, Option.some.injEq] at h
    exact h ▸ hI
  | cons a rest ih =>
    obtain ⟨s0, hs, hr⟩ := run_cons h
    exact ih (inv_step hI hs) hr

theorem length_step {w : World} {s s1 : State} {a : Action}
    (h : step w s a = some s1) : s1.digesters.length = s.digesters.length := by
  cases a with
  | cancel deadline => obtain ⟨-, cause, -, rfl⟩ := step_cancel h; rfl
  | walkerCall =>
    obtain ⟨c, rest, hw, ⟨err, herr, rfl⟩ | ⟨hnone, hreg, rfl⟩⟩ := step_walkerCall h <;> rfl
  | walkerReturn => obtain ⟨hw, rfl⟩ := step_walkerReturn h; rfl
  | walkerCtx => obtain ⟨c, rest, err, hw, hreg, hctx, rfl⟩ := step_walkerCtx h; rfl
  | job i => obtain ⟨c, rest, hw, hreg, hd, rfl⟩ := step_job h; simp
  | digCtx i =>
    obtain ⟨d, err, hd, hkind, hctx, rfl⟩ := step_digCtx h
    simp [digesterReturns, returnInner]
  | digClosed i =>
    obtain ⟨hd, hj, rfl⟩ := step_digClosed h
    simp [digesterReturns, returnInner]
  | digHash i =>
    obtain ⟨path, hd, ⟨err, herr, rfl⟩ | ⟨sum, hsum, rfl⟩⟩ := step_digHash h <;>
      simp [digesterReturns, returnInner]
  | result i => obtain ⟨cs, hd, hc, rfl⟩ := step_result h; simp
  | collCtx => obtain ⟨err, hc, hctx, rfl⟩ := step_collCtx h; rfl
  | collClosed => obtain ⟨hc, hr, rfl⟩ := step_collClosed h; rfl
  | fetcherReturn =>
    obtain ⟨hf, hw, hds, rfl⟩ := step_fetcherReturn h
    rw [(returnOuter_frame _ _).2.2.2.2.2.1]

theorem length_run {w : World} {s s1 : State} {acts : List Action}
    (h : run w s acts = some s1) : s1.digesters.length = s.digesters.length := by
  induction acts generalizing s with
  | nil =>
    simp only [run, Option.some.injEq] at h
    rw [h]
  | cons a rest ih =>
    obtain ⟨s0, hs, hr⟩ := run_cons h
    rw [ih hr, length_step hs]

/-! ## Progress and termination -/

theorem fuel_step {w : World} {s s1 : State} {a : Action}
    (h : step w s a = some s1) : fuel s1 < fuel s := by
  cases a with
  | cancel deadline =>
    obtain ⟨hp, cause, -, rfl⟩ := step_cancel h
    simp [fuel, hp]
  | walkerCall =>
    obtain ⟨c, rest, hw, ⟨err, herr, rfl⟩ | ⟨hnone, hreg, rfl⟩⟩ := step_walkerCall h
    · simp [fuel, hw, walkerReturns, returnInner]
    · simp [fuel, hw]
  | walkerReturn =>
    obtain ⟨hw, rfl⟩ := step_walkerReturn h
    simp [fuel, hw, walkerReturns, returnInner]
  | walkerCtx =>
    obtain ⟨c, rest, err, hw, hreg, hctx, rfl⟩ := step_walkerCtx h
    simp [fuel, hw, walkerReturns, returnInner]
  | job i =>
    obtain ⟨c, rest, hw, hreg, hd, rfl⟩ := step_job h
    have := fuel_set hd (.hashing c.path)
    simp [fuel, hw, Digester.fuel] at this ⊢; omega
  | digCtx i =>
    obtain ⟨d, err, hd, hkind, hctx, rfl⟩ := step_digCtx h
    have := fuel_set hd (.done (some err))
    rcases hkind with rfl | ⟨cs, rfl⟩ <;>
      simp [fuel, digesterReturns, returnInner, Digester.fuel] at this ⊢ <;> omega
  | digClosed i =>
    obtain ⟨hd, hj, rfl⟩ := step_digClosed h
    have := fuel_set hd (.done none)
    simp [fuel, digesterReturns, returnInner, Digester.fuel] at this ⊢; omega
  | digHash i =>
    obtain ⟨path, hd, ⟨err, herr, rfl⟩ | ⟨sum, hsum, rfl⟩⟩ := step_digHash h
    · have := fuel_set hd (.done (some err))
      simp [fuel, digesterReturns, returnInner, Digester.fuel] at this ⊢; omega
    · have := fuel_set hd (.sending ⟨path, sum⟩)
      simp [fuel, Digester.fuel] at this ⊢; omega
  | result i =>
    obtain ⟨cs, hd, hc, rfl⟩ := step_result h
    have := fuel_set hd .idle
    simp [fuel, Digester.fuel] at this ⊢; omega
  | collCtx =>
    obtain ⟨err, hc, hctx, rfl⟩ := step_collCtx h
    simp [fuel, hc, returnOuter]
  | collClosed =>
    obtain ⟨hc, hr, rfl⟩ := step_collClosed h
    simp [fuel, hc]
  | fetcherReturn =>
    obtain ⟨hf, hw, hds, rfl⟩ := step_fetcherReturn h
    obtain ⟨f1, f2, f3, f4, f5, f6, f7, f8, f9⟩ := returnOuter_frame s.innerErr
      { s with fetcher := .done s.innerErr, resultsClosed := true }
    simp only [fuel, f1, f5, f6, f7, f8, hf]
    omega

theorem collector_running_of_sending {w : World} {s : State} (hI : Inv w s)
    (hf : s.fetcher = .waiting) (hctx : s.innerCtx = none) : s.collector = .running := by
  cases hc : s.collector with
  | running => rfl
  | done ret =>
    exfalso
    cases ret with
    | none =>
      have := hI.collNil hc
      simp [hI.results, hf, Fetcher.isDone] at this
    | some e =>
      have := hI.outerInner (hI.outerErrCtx (hI.collErr e hc))
      simp [hctx] at this

theorem digester_step {w : World} {s : State} (hI : Inv w s) (hf : s.fetcher = .waiting)
    {i : Nat} {d : Digester} (hd : s.digesters[i]? = some d) (hnd : d.isDone = false)
    (hidle : d = .idle → s.jobsClosed = true ∨
      (step w s (.job i)).isSome = true ∨ s.innerCtx.isSome = true) :
    ∃ a, a.isTask = true ∧ (step w s a).isSome = true := by
  cases d with
  | done ret => simp [Digester.isDone] at hnd
  | hashing path =>
    refine ⟨.digHash i, rfl, ?_⟩
    simp only [step, hd]
    split <;> rfl
  | idle =>
    rcases hidle rfl with hj | hjob | hctx
    · exact ⟨.digClosed i, rfl, by simp [step, hd, hj]⟩
    · exact ⟨.job i, rfl, hjob⟩
    · obtain ⟨err, herr⟩ := Option.isSome_iff_exists.mp hctx
      exact ⟨.digCtx i, rfl, by simp [step, hd, herr]⟩
  | sending cs =>
    cases hctx : s.innerCtx with
    | some err => exact ⟨.digCtx i, rfl, by simp [step, hd, hctx]⟩
    | none =>
      have hc := collector_running_of_sending hI hf hctx
      exact ⟨.result i, rfl, by simp [step, hd, hc]⟩

/-- No reachable state is a deadlock: while some goroutine has not
returned, a goroutine can take a step. -/
theorem progress {w : World} {s : State} (hI : Inv w s) (hlen : 0 < s.digesters.length)
    (hnot : allReturned s = false) :
    ∃ a, a.isTask = true ∧ (step w s a).isSome = true := by
  cases hf : s.fetcher with
  | done ret =>
    have hwd := hI.waited (by simp [hf, Fetcher.isDone])
    have hall : s.digesters.all Digester.isDone = true := by simpa using hwd.2
    have hc : s.collector = .running := by
      cases hc : s.collector with
      | running => rfl
      | done r => simp [allReturned, hwd.1, hall, hf, hc, Fetcher.isDone, Collector.isDone] at hnot
    have hr : s.resultsClosed = true := by simp [hI.results, hf, Fetcher.isDone]
    exact ⟨.collClosed, rfl, by simp [step, hc, hr]⟩
  | waiting =>
    cases hw : s.walker with
    | walking calls =>
      cases calls with
      | nil => exact ⟨.walkerReturn, rfl, by simp [step, hw]⟩
      | cons c rest =>
        cases hreg : isRegularCall c with
        | false =>
          refine ⟨.walkerCall, rfl, ?_⟩
          obtain ⟨path, mode, err⟩ := c
          cases err <;> cases mode <;> simp [step, hw]
          rename_i m
          cases m <;> simp [isRegularCall] at hreg ⊢
        | true =>
          have hce : c.err = none ∧ c.mode = some .regular := by
            obtain ⟨path, mode, err⟩ := c
            cases err <;> cases mode <;> simp [isRegularCall] at hreg ⊢
            rename_i m
            cases m <;> simp at hreg ⊢
          cases hctx : s.innerCtx with
          | some err =>
            exact ⟨.walkerCtx, rfl, by simp [step, hw, hce.1, hce.2, hctx]⟩
          | none =>
            have hd : s.digesters[0]? = some s.digesters[0] := List.getElem?_eq_getElem hlen
            have hok := hI.digs _ (List.getElem?_mem hd)
            have hnd : (s.digesters[0]).isDone = false := by
              cases hd0 : s.digesters[0] with
              | done ret =>
                rw [hd0] at hok
                cases ret with
                | none => simp [DigOk, hI.jobs, hw, Walker.isDone] at hok
                | some e =>
                  have := hI.innerErrCtx hok
                  simp [hctx] at this
              | _ => rfl
            refine digester_step hI hf hd hnd (fun hidle => Or.inr (Or.inl ?_))
            rw [hidle] at hd
            simp [step, hw, hd, hce.1, hce.2]
    | done ret =>
      by_cases hall : s.digesters.all Digester.isDone = true
      · exact ⟨.fetcherReturn, rfl, by simp [step, hf, hw, Walker.isDone, hall]⟩
      · obtain ⟨d, hdm, hnd⟩ : ∃ d ∈ s.digesters, d.isDone = false := by
          simpa using hall
        obtain ⟨i, hd⟩ := List.mem_iff_getElem?.mp hdm
        exact digester_step hI hf hd hnd
          (fun _ => Or.inl (by simp [hI.jobs, hw, Walker.isDone]))

/-- Every run is finite: its length is bounded by the fuel of its first
state. -/
theorem run_length {w : World} {s s1 : State} {acts : List Action}
    (h : run w s acts = some s1) : acts.length + fuel s1 ≤ fuel s := by
  induction acts generalizing s with
  | nil =>
    simp only [run, Option.some.injEq] at h
    simp [h]
  | cons a rest ih =>
    obtain ⟨s0, hs, hr⟩ := run_cons h
    have := ih hr
    have := fuel_step hs
    simp only [List.length_cons]
    omega

/-- The goroutines can always run to completion: from a state that
satisfies the invariant some steps of the goroutines lead to a state in
which all have returned. -/
theorem exists_completion {w : World} (n : Nat) :
    ∀ s : State, fuel s ≤ n → Inv w s → 0 < s.digesters.length →
      ∃ acts s1, (∀ a ∈ acts, a.isTask = true) ∧ run w s acts = some s1 ∧
        allReturned s1 = true := by
  induction n with
  | zero =>
    intro s hn hI hlen
    cases hall : allReturned s with
    | true => exact ⟨[], s, by simp, rfl, hall⟩
    | false =>
      obtain ⟨a, -, ha⟩ := progress hI hlen hall
      obtain ⟨s1, hs⟩ := Option.isSome_iff_exists.mp ha
      have := fuel_step hs
      omega
  | succ n ih =>
    intro s hn hI hlen
    cases hall : allReturned s with
    | true => exact ⟨[], s, by simp, rfl, hall⟩
    | false =>
      obtain ⟨a, hta, ha⟩ := progress hI hlen hall
      obtain ⟨s1, hs⟩ := Option.isSome_iff_exists.mp ha
      have hlt := fuel_step hs
      obtain ⟨acts, s2, htask, hrun, hdone⟩ :=
        ih s1 (by omega) (inv_step hI hs) (by rw [length_step hs]; exact hlen)
      refine ⟨a :: acts, s2, ?_, ?_, hdone⟩
      · intro b hb
        rcases List.mem_cons.mp hb with rfl | hb
        · exact hta
        · exact htask b hb
      · simp only [run, hs]
        exact hrun

/-! ## The walk -/

mutual
theorem regularPaths_walkCalls (path : GoString) :
    (node : Node) → regularPaths (walkCalls path node) = regularFiles path node
  | .leaf mode => by
    cases mode <;> simp [walkCalls, regularFiles, regularPaths, isRegularCall]
  | .dir children => by
    have ih := regularPaths_walkChildren path children
    simp only [regularPaths] at ih
    simp [walkCalls, regularFiles, regularPaths, isRegularCall, ih]
  | .unreadableDir err => by simp [walkCalls, regularFiles, regularPaths, isRegularCall]
  | .lstatError err => by simp [walkCalls, regularFiles, regularPaths, isRegularCall]
theorem regularPaths_walkChildren (dir : GoString) :
    (children : List (GoString × Node)) →
      regularPaths (walkChildren dir children) = regularFilesIn dir children
  | [] => by simp [walkChildren, regularFilesIn, regularPaths]
  | (name, child) :: rest => by
    have ih1 := regularPaths_walkCalls (Join dir name) child
    have ih2 := regularPaths_walkChildren dir rest
    simp only [regularPaths] at ih1 ih2
    simp [walkChildren, regularFilesIn, regularPaths, ih1, ih2]
end

theorem name_unique : ∀ (n1 n2 s1 s2 : GoString), 47 ∉ n1 → 47 ∉ n2 →
    IsTail s1 → IsTail s2 → n1 ++ s1 = n2 ++ s2 → n1 = n2
  | [], [], _, _, _, _, _, _, _ => rfl
  | [], b :: n2, s1, s2, _, h2, t1, _, h => by
    exfalso
    simp only [List.nil_append, List.cons_append] at h
    rcases t1 with rfl | t1
    · simp at h
    · rw [h] at t1
      simp only [List.head?_cons, Option.some.injEq] at t1
      exact h2 (by simp [t1])
  | a :: n1, [], s1, s2, h1, _, _, t2, h => by
    exfalso
    simp only [List.nil_append, List.cons_append] at h
    rcases t2 with rfl | t2
    · simp at h
    · rw [← h] at t2
      simp only [List.head?_cons, Option.some.injEq] at t2
      exact h1 (by simp [t2])
  | a :: n1, b :: n2, s1, s2, h1, h2, t1, t2, h => by
    simp only [List.cons_append, List.cons.injEq] at h
    have := name_unique n1 n2 s1 s2 (fun hm => h1 (List.mem_cons_of_mem _ hm))
      (fun hm => h2 (List.mem_cons_of_mem _ hm)) t1 t2 h.2
    rw [h.1, this]

/-! ## filepath.Clean and filepath.Join -/

theorem isRealName_iff (n : GoString) :
    isRealName n = true ↔ n ≠ [] ∧ 47 ∉ n ∧ n ≠ [46] ∧ n ≠ [46, 46] := by
  simp [isRealName]

theorem splitSlash_ne_nil (a : GoString) : splitSlash a ≠ [] := by
  cases a with
  | nil => simp [splitSlash]
  | cons c rest =>
    simp only [splitSlash]
    split
    · simp
    · split <;> simp

theorem splitSlash_append (a b : GoString) :
    splitSlash (a ++ 47 :: b) = splitSlash a ++ splitSlash b := by
  induction a with
  | nil => simp [splitSlash]
  | cons c rest ih =>
    simp only [List.cons_append, splitSlash]
    split
    · simp [ih]
    · have ih1 : splitSlash (rest.append (47 :: b)) = splitSlash rest ++ splitSlash b := ih
      rw [ih1]
      cases hs : splitSlash rest with
      | nil => exact absurd hs (splitSlash_ne_nil rest)
      | cons e es => simp

theorem splitSlash_plain (n : GoString) (h : 47 ∉ n) : splitSlash n = [n] := by
  induction n with
  | nil => rfl
  | cons c rest ih =>
    have hc : c ≠ 47 := fun hc => h (by simp [hc])
    have hr : 47 ∉ rest := fun hm => h (List.mem_cons_of_mem _ hm)
    simp [splitSlash, hc, ih hr]

theorem cleanStep_real (rooted : Bool) (kept : List GoString) (n : GoString)
    (h : isRealName n = true) : cleanStep rooted kept n = n :: kept := by
  obtain ⟨h1, -, h3, h4⟩ := (isRealName_iff n).mp h
  simp [cleanStep, h1, h3, h4]

theorem joinRev_cons (e : GoString) (below : List GoString) (h : below ≠ []) :
    joinRev (e :: below) = joinRev below ++ 47 :: e := by
  cases below with
  | nil => exact absurd rfl h
  | cons x xs => rfl

theorem cleanBody_cons (rooted : Bool) (e : GoString) (below : List GoString)
    (h : below ≠ []) :
    cleanBody rooted (e :: below) = cleanBody rooted below ++ 47 :: e := by
  cases rooted <;> simp [cleanBody, joinRev_cons e below h]

/-- Cleaning the path built from the kept elements keeps the same
elements. -/
theorem clean_roundtrip (rooted : Bool) :
    ∀ kept : List GoString, Canon rooted kept →
      (splitSlash (cleanBody rooted kept)).foldl (cleanStep rooted) [] = kept
  | [], _ => by
    cases rooted <;> simp [cleanBody, joinRev, splitSlash, cleanStep]
  | e :: below, hc => by
    obtain ⟨hb, h1, h2, h3, h4⟩ := hc
    have ih := clean_roundtrip rooted below hb
    have hstep : cleanStep rooted below e = e :: below := by
      by_cases hdd : e = [46, 46]
      · obtain ⟨hr, hall⟩ := h4 hdd
        subst hdd
        cases below with
        | nil => simp [cleanStep, hr]
        | cons top rest =>
          have := hall top (List.mem_cons_self _ _)
          simp [cleanStep, this]
      · simp [cleanStep, h1, h3, hdd]
    by_cases hne : below = []
    · subst hne
      cases rooted
      · simpa [cleanBody, joinRev, splitSlash_plain e h2] using hstep
      · simp only [cleanBody, joinRev, splitSlash, if_true, splitSlash_plain e h2,
          List.foldl_cons, List.foldl_nil]
        simpa [cleanStep] using hstep
    · rw [cleanBody_cons rooted e below hne, splitSlash_append, splitSlash_plain e h2,
        List.foldl_append, ih]
      simpa using hstep

theorem canon_step (rooted : Bool) (kept : List GoString) (elem : GoString)
    (hk : Canon rooted kept) (he : 47 ∉ elem) : Canon rooted (cleanStep rooted kept elem) := by
  simp only [cleanStep]
  split
  · exact hk
  · rename_i h1
    push_neg at h1
    split
    · rename_i hdd
      subst hdd
      cases kept with
      | nil =>
        cases rooted
        · simp [Canon]
        · simp [Canon]
      | cons top below =>
        simp only
        split
        · rename_i htop
          subst htop
          obtain ⟨hb, h1', h2', h3', h4'⟩ := hk
          obtain ⟨hr, hall⟩ := h4' rfl
          refine ⟨⟨hb, h1', h2', h3', h4'⟩, by simp, by simp, by simp, fun _ => ⟨hr, ?_⟩⟩
          intro x hx
          rcases List.mem_cons.mp hx with rfl | hx
          · rfl
          · exact hall x hx
        · exact hk.1
    · rename_i hdd
      exact ⟨hk, h1.1, he, h1.2, fun h => absurd h hdd⟩

theorem splitSlash_no_slash (a : GoString) : ∀ e ∈ splitSlash a, 47 ∉ e := by
  induction a with
  | nil => simp [splitSlash]
  | cons c rest ih =>
    simp only [splitSlash]
    split
    · intro e he
      rcases List.mem_cons.mp he with rfl | he
      · simp
      · exact ih e he
    · rename_i hc
      cases hs : splitSlash rest with
      | nil => exact absurd hs (splitSlash_ne_nil rest)
      | cons e0 es =>
        rw [hs] at ih
        intro e he
        rcases List.mem_cons.mp he with rfl | he
        · intro hm
          rcases List.mem_cons.mp hm with h47 | hm
          · exact hc h47.symm
          · exact ih e0 (List.mem_cons_self _ _) hm
        · exact ih e (List.mem_cons_of_mem _ he)

theorem canon_fold (rooted : Bool) (elems kept : List GoString) (hk : Canon rooted kept)
    (he : ∀ e ∈ elems, 47 ∉ e) : Canon rooted (elems.foldl (cleanStep rooted) kept) := by
  induction elems generalizing kept with
  | nil => exact hk
  | cons e rest ih =>
    exact ih _ (canon_step rooted kept e hk (he e (List.mem_cons_self _ _)))
      (fun x hx => he x (List.mem_cons_of_mem _ hx))

theorem joinRev_head (rooted : Bool) : ∀ kept : List GoString, Canon rooted kept →
    kept ≠ [] → ∃ c t, joinRev kept = c :: t ∧ c ≠ 47
  | [], _, h => absurd rfl h
  | [e], hc, _ => by
    obtain ⟨-, h1, h2, -, -⟩ := hc
    cases e with
    | nil => exact absurd rfl h1
    | cons c t => exact ⟨c, t, rfl, fun h => h2 (by simp [h])⟩
  | e :: x :: xs, hc, _ => by
    obtain ⟨c, t, ht, hne⟩ := joinRev_head rooted (x :: xs) hc.1 (by simp)
    exact ⟨c, t ++ 47 :: e, by rw [joinRev_cons e (x :: xs) (by simp), ht]; rfl, hne⟩

theorem cleanBody_rooted (rooted : Bool) (kept : List GoString) (hc : Canon rooted kept)
    (hne : kept ≠ []) :
    cleanBody rooted kept ≠ [] ∧
      decide ((cleanBody rooted kept).head? = some 47) = rooted := by
  cases rooted with
  | true => simp [cleanBody]
  | false =>
    obtain ⟨c, t, ht, hc47⟩ := joinRev_head false kept hc hne
    simp [cleanBody, ht, hc47]

theorem Clean_eq (path : GoString) (hp : path ≠ [])
    (hk : (splitSlash path).foldl (cleanStep (decide (path.head? = some 47))) [] ≠ []) :
    Clean path = cleanBody (decide (path.head? = some 47))
      ((splitSlash path).foldl (cleanStep (decide (path.head? = some 47))) []) := by
  simp only [Clean, hp, if_false, cleanBody]
  split
  · rfl
  · simp [hk]

theorem Clean_join (dir : GoString) (hd : dir ≠ []) (n : GoString)
    (hn : isRealName n = true) :
    Clean (dir ++ 47 :: n) = cleanBody (decide (dir.head? = some 47))
      (n :: (splitSlash dir).foldl (cleanStep (decide (dir.head? = some 47))) []) := by
  have h47 : 47 ∉ n := ((isRealName_iff n).mp hn).2.1
  have hhead : (dir ++ 47 :: n).head? = dir.head? := by
    cases dir with
    | nil => exact absurd rfl hd
    | cons c t => rfl
  have hfold : (splitSlash (dir ++ 47 :: n)).foldl
      (cleanStep (decide ((dir ++ 47 :: n).head? = some 47))) []
        = n :: (splitSlash dir).foldl (cleanStep (decide (dir.head? = some 47))) [] := by
    rw [hhead, splitSlash_append, splitSlash_plain n h47, List.foldl_append]
    simp [cleanStep_real _ _ n hn]
  have := Clean_eq (dir ++ 47 :: n) (by simp) (by rw [hfold]; simp)
  rw [this, hfold, hhead]

theorem canon_push (rooted : Bool) (kept : List GoString) (n : GoString)
    (hk : Canon rooted kept) (hn : isRealName n = true) : Canon rooted (n :: kept) := by
  obtain ⟨h1, h2, h3, h4⟩ := (isRealName_iff n).mp hn
  exact ⟨hk, h1, h2, h3, fun h => absurd h h4⟩

/-- Below any directory the paths of the entries share one prefix. -/
theorem joinsAs_exists (dir : GoString) : ∃ base, JoinsAs dir base := by
  by_cases hd : dir = []
  · subst hd
    refine ⟨[], fun n hn => ?_⟩
    obtain ⟨h1, h2, h3, h4⟩ := (isRealName_iff n).mp hn
    have hhead : decide (n.head? = some 47) = false := by
      cases n with
      | nil => exact absurd rfl h1
      | cons c t =>
        have : c ≠ 47 := fun h => h2 (by simp [h])
        simp [this]
    have hfold : (splitSlash n).foldl (cleanStep false) [] = [n] := by
      rw [splitSlash_plain n h2]
      simp [cleanStep_real _ _ n hn]
    have hc := Clean_eq n h1 (by rw [hhead, hfold]; simp)
    rw [hhead, hfold] at hc
    refine ⟨by simp [Join, h1, hc, cleanBody, joinRev], false, [], ?_, by simp [cleanBody, joinRev]⟩
    exact canon_push false [] n trivial hn
  · have hcanon : Canon (decide (dir.head? = some 47))
        ((splitSlash dir).foldl (cleanStep (decide (dir.head? = some 47))) []) :=
      canon_fold _ _ _ trivial (splitSlash_no_slash dir)
    by_cases hk : (splitSlash dir).foldl (cleanStep (decide (dir.head? = some 47))) [] = []
    · refine ⟨if decide (dir.head? = some 47) then [47] else [], fun n hn => ?_⟩
      have hj := Clean_join dir hd n hn
      rw [hk] at hj
      refine ⟨?_, decide (dir.head? = some 47), [], canon_push _ [] n trivial hn, ?_⟩
      · simp only [Join, ne_eq, hd, not_false_eq_true, if_true, hj]
        cases decide (dir.head? = some 47) <;> simp [cleanBody, joinRev]
      · cases decide (dir.head? = some 47) <;> simp [cleanBody, joinRev]
    · refine ⟨cleanBody (decide (dir.head? = some 47))
        ((splitSlash dir).foldl (cleanStep (decide (dir.head? = some 47))) []) ++ [47],
        fun n hn => ?_⟩
      have hj := Clean_join dir hd n hn
      rw [cleanBody_cons _ n _ hk] at hj
      refine ⟨by simp [Join, hd, hj], _, _, canon_push _ _ n hcanon hn, ?_⟩
      rw [cleanBody_cons _ n _ hk]
      simp

/-- Below a cleaned path that ends in a name, the path of an entry is the
path, a separator and the name of the entry. -/
theorem joinsAs_body (q : GoString) (rooted : Bool) (kept : List GoString) (n : GoString)
    (hc : Canon rooted (n :: kept)) (hq : q = cleanBody rooted (n :: kept)) :
    JoinsAs q (q ++ [47]) := by
  intro m hm
  obtain ⟨hne, hhead⟩ := cleanBody_rooted rooted (n :: kept) hc (by simp)
  rw [← hq] at hne hhead
  have hj := Clean_join q hne m hm
  rw [hhead, hq, clean_roundtrip rooted (n :: kept) hc, ← hq] at hj
  have hb : cleanBody rooted (m :: n :: kept) = q ++ 47 :: m := by
    rw [cleanBody_cons rooted m (n :: kept) (by simp), hq]
  rw [hb] at hj
  refine ⟨by simp [Join, hne, hj], rooted, n :: kept, canon_push _ _ m hc hm, ?_⟩
  rw [hb]
  simp

/-! ## Distinct paths -/

mutual
theorem regularFiles_tail (path : GoString) (hj : JoinsAs path (path ++ [47])) :
    (node : Node) → node.wellFormed = true →
      ∀ p ∈ regularFiles path node, ∃ suffix, p = path ++ suffix ∧ IsTail suffix
  | .leaf mode => by
    intro _ p hp
    cases mode <;> simp [regularFiles] at hp
    exact ⟨[], by simp [hp], Or.inl rfl⟩
  | .dir children => by
    intro hwf p hp
    simp only [Node.wellFormed, namesOk, Bool.and_eq_true, decide_eq_true_eq,
      List.all_eq_true] at hwf
    simp only [regularFiles] at hp
    obtain ⟨c, -, suffix, rfl, -⟩ :=
      regularFilesIn_tail path (path ++ [47]) hj children hwf.1.2 hwf.2 p hp
    exact ⟨47 :: (c.1 ++ suffix), by simp, Or.inr rfl⟩
  | .unreadableDir err => by simp [regularFiles]
  | .lstatError err => by simp [regularFiles]
theorem regularFilesIn_tail (dir base : GoString) (hj : JoinsAs dir base) :
    (children : List (GoString × Node)) → (∀ c ∈ children, isRealName c.1 = true) →
      childrenWellFormed children = true → ∀ p ∈ regularFilesIn dir children,
      ∃ c ∈ children, ∃ suffix, p = base ++ (c.1 ++ suffix) ∧ IsTail suffix
  | [] => by simp [regularFilesIn]
  | (name, child) :: rest => by
    intro hreal hwf p hp
    simp only [childrenWellFormed, Bool.and_eq_true] at hwf
    simp only [regularFilesIn, List.mem_append] at hp
    obtain ⟨hjoin, rooted, kept, hcanon, hbody⟩ := hj name (hreal (name, child) (List.mem_cons_self _ _))
    rcases hp with hp | hp
    · rw [hjoin] at hp
      obtain ⟨suffix, rfl, ht⟩ := regularFiles_tail (base ++ name)
        (joinsAs_body _ rooted kept name hcanon hbody) child hwf.1 p hp
      exact ⟨(name, child), List.mem_cons_self _ _, suffix, by simp, ht⟩
    · obtain ⟨c, hc, suffix, rfl, ht⟩ := regularFilesIn_tail dir base hj rest
        (fun c hc => hreal c (List.mem_cons_of_mem _ hc)) hwf.2 p hp
      exact ⟨c, List.mem_cons_of_mem _ hc, suffix, rfl, ht⟩
end

mutual
theorem regularFiles_nodup_in (path : GoString) (hj : JoinsAs path (path ++ [47])) :
    (node : Node) → node.wellFormed = true → (regularFiles path node).Nodup
  | .leaf mode => by
    intro _
    cases mode <;> simp [regularFiles]
  | .dir children => by
    intro hwf
    simp only [Node.wellFormed, namesOk, Bool.and_eq_true, decide_eq_true_eq,
      List.all_eq_true] at hwf
    simp only [regularFiles]
    exact regularFilesIn_nodup path (path ++ [47]) hj children hwf.1.1 hwf.1.2 hwf.2
  | .unreadableDir err => by simp [regularFiles]
  | .lstatError err => by simp [regularFiles]
theorem regularFilesIn_nodup (dir base : GoString) (hj : JoinsAs dir base) :
    (children : List (GoString × Node)) → (children.map Prod.fst).Nodup →
      (∀ c ∈ children, isRealName c.1 = true) → childrenWellFormed children = true →
      (regularFilesIn dir children).Nodup
  | [] => by simp [regularFilesIn]
  | (name, child) :: rest => by
    intro hnd hreal hwf
    simp only [childrenWellFormed, Bool.and_eq_true] at hwf
    simp only [List.map_cons, List.nodup_cons] at hnd
    simp only [regularFilesIn]
    have hrn := hreal (name, child) (List.mem_cons_self _ _)
    obtain ⟨hjoin, rooted, kept, hcanon, hbody⟩ := hj name hrn
    have hjb := joinsAs_body _ rooted kept name hcanon hbody
    rw [hjoin]
    refine List.Nodup.append (regularFiles_nodup_in (base ++ name) hjb child hwf.1)
      (regularFilesIn_nodup dir base hj rest hnd.2
        (fun c hc => hreal c (List.mem_cons_of_mem _ hc)) hwf.2) ?_
    intro p hp1 hp2
    obtain ⟨s1, rfl, ht1⟩ := regularFiles_tail (base ++ name) hjb child hwf.1 p hp1
    obtain ⟨c, hc, s2, heq, ht2⟩ := regularFilesIn_tail dir base hj rest
      (fun c hc => hreal c (List.mem_cons_of_mem _ hc)) hwf.2 _ hp2
    have heq1 : name ++ s1 = c.1 ++ s2 := by
      simpa using heq
    have := name_unique name c.1 s1 s2 ((isRealName_iff name).mp hrn).2.1
      ((isRealName_iff c.1).mp (hreal c (List.mem_cons_of_mem _ hc))).2.1 ht1 ht2 heq1
    exact hnd.1 (this ▸ List.mem_map_of_mem Prod.fst hc)
end

/-- In a tree a file system can hold the regular files have distinct
paths, whatever the root path. -/
theorem regularFiles_nodup (root : GoString) (node : Node) (hwf : node.wellFormed = true) :
    (regularFiles root node).Nodup := by
  cases node with
  | leaf mode => cases mode <;> simp [regularFiles]
  | dir children =>
    simp only [Node.wellFormed, namesOk, Bool.and_eq_true, decide_eq_true_eq,
      List.all_eq_true] at hwf
    obtain ⟨base, hj⟩ := joinsAs_exists root
    simp only [regularFiles]
    exact regularFilesIn_nodup root base hj children hwf.1.1 hwf.1.2 hwf.2
  | unreadableDir err => simp [regularFiles]
  | lstatError err => simp [regularFiles]


/-! ## Errors along a run -/

theorem errors_step {w : World} {s s1 : State} {a : Action}
    (h : step w s a = some s1) :
    (s.innerErr.isSome = true → s1.innerErr.isSome = true) ∧
    (s.outerErr.isSome = true → s1.outerErr.isSome = true) ∧
    (a = .walkerCtx ∨ (∃ i, a = .digCtx i) ∨ failsAt w s a = true →
      s1.innerErr.isSome = true) ∧
    (a = .collCtx → s1.outerErr.isSome = true) := by
  cases a with
  | cancel deadline =>
    obtain ⟨hp, err, -, rfl⟩ := step_cancel h
    simp [failsAt]
  | walkerCall =>
    obtain ⟨c, rest, hw, ⟨err, herr, rfl⟩ | ⟨hnone, hreg, rfl⟩⟩ := step_walkerCall h
    · simp [walkerReturns, returnInner]
    · have := hnone
      simp [failsAt, hw, this]
  | walkerReturn =>
    obtain ⟨hw, rfl⟩ := step_walkerReturn h
    simp [walkerReturns, returnInner, failsAt, hw]
  | walkerCtx =>
    obtain ⟨c, rest, err, hw, hreg, hctx, rfl⟩ := step_walkerCtx h
    simp [walkerReturns, returnInner]
  | job i =>
    obtain ⟨c, rest, hw, hreg, hd, rfl⟩ := step_job h
    simp [failsAt]
  | digCtx i =>
    obtain ⟨d, err, hd, hkind, hctx, rfl⟩ := step_digCtx h
    simp [digesterReturns, returnInner]
  | digClosed i =>
    obtain ⟨hd, hj, rfl⟩ := step_digClosed h
    simp [digesterReturns, returnInner, failsAt]
  | digHash i =>
    obtain ⟨path, hd, ⟨err, herr, rfl⟩ | ⟨sum, hsum, rfl⟩⟩ := step_digHash h
    · simp [digesterReturns, returnInner]
    · simp [failsAt, hd, hsum]
  | result i =>
    obtain ⟨cs, hd, hc, rfl⟩ := step_result h
    simp [failsAt]
  | collCtx =>
    obtain ⟨err, hc, hctx, rfl⟩ := step_collCtx h
    simp [returnOuter, failsAt]
  | collClosed =>
    obtain ⟨hc, hr, rfl⟩ := step_collClosed h
    simp [failsAt]
  | fetcherReturn =>
    obtain ⟨hf, hw, hds, rfl⟩ := step_fetcherReturn h
    obtain ⟨f1, f2, f3, f4, f5, f6, f7, f8, f9⟩ := returnOuter_frame s.innerErr
      { s with fetcher := .done s.innerErr, resultsClosed := true }
    refine ⟨fun hi => by rw [f2]; exact hi, ?_, by simp [failsAt], by simp⟩
    cases s.innerErr <;> simp [returnOuter]

theorem ctxInv_returnInner {s : State} {err : GoError} (hC : CtxInv s)
    (hctx : s.innerCtx = some err) (s0 : State)
    (h1 : s0.parentErr = s.parentErr) (h2 : s0.outerCtx = s.outerCtx)
    (h3 : s0.innerCtx = s.innerCtx) (h4 : s0.outerErr = s.outerErr)
    (h5 : s0.innerErr = s.innerErr) : CtxInv (returnInner (some err) s0) := by
  have hp := hC.innerCtx err hctx
  constructor
  · intro e he
    show s0.parentErr = some e
    rw [h1]
    exact hC.outerCtx e (by simpa [returnInner, h2] using he)
  · intro e he
    simp only [returnInner, h3, hctx, firstErr_some, Option.some.injEq] at he
    simpa [returnInner, h1, ← he] using hp
  · intro e he
    show s0.parentErr = some e
    rw [h1]
    exact hC.outerErr e (by simpa [returnInner, h4] using he)
  · intro e he
    simp only [returnInner, h5] at he
    cases hie : s.innerErr with
    | none =>
      simp only [hie, firstErr_none, Option.some.injEq] at he
      simpa [returnInner, h1, ← he] using hp
    | some e1 =>
      simp only [hie, firstErr_some, Option.some.injEq] at he
      simpa [returnInner, h1, ← he] using hC.innerErr e1 hie

theorem ctxInv_returnOuter {w : World} {s : State} {err : GoError} (hI : Inv w s)
    (hC : CtxInv s) (hp : s.parentErr = some err) (s0 : State)
    (h1 : s0.parentErr = s.parentErr) (h2 : s0.outerCtx = s.outerCtx)
    (h3 : s0.innerCtx = s.innerCtx) (h4 : s0.outerErr = s.outerErr)
    (h5 : s0.innerErr = s.innerErr) : CtxInv (returnOuter (some err) s0) := by
  have ho := hI.parentCtx (by simp [hp])
  have hi := hI.outerInner ho
  constructor
  · intro e he
    simp only [returnOuter, h2, firstErr_of_isSome ho] at he
    simpa [returnOuter, h1] using hC.outerCtx e he
  · intro e he
    simp only [returnOuter, h3, firstErr_of_isSome hi] at he
    simpa [returnOuter, h1] using hC.innerCtx e he
  · intro e he
    simp only [returnOuter, h4] at he
    cases hoe : s.outerErr with
    | none =>
      simp only [hoe, firstErr_none, Option.some.injEq] at he
      simpa [returnOuter, h1, ← he] using hp
    | some e1 =>
      simp only [hoe, firstErr_some, Option.some.injEq] at he
      simpa [returnOuter, h1, ← he] using hC.outerErr e1 hoe
  · intro e he
    show s0.parentErr = some e
    rw [h1]
    exact hC.innerErr e (by simpa [returnOuter, h5] using he)

theorem failsAt_of_noIOError {w : World} {s : State} (a : Action) (hio : NoIOError w)
    (hI : Inv w s) : failsAt w s a = false := by
  cases a with
  | walkerCall =>
    cases hw : s.walker with
    | done r => simp [failsAt, hw]
    | walking calls =>
      cases calls with
      | nil => simp [failsAt, hw]
      | cons c rest =>
        simp [failsAt, hw, hio.1 c (hI.calls _ hw c (List.mem_cons_self _ _))]
  | digHash i =>
    cases hd : s.digesters[i]? with
    | none => simp [failsAt, hd]
    | some d =>
      cases d with
      | hashing path =>
        have hmem : path ∈ regularFiles w.root w.tree := by
          rw [← regularPaths_walkCalls]
          exact hI.digs _ (List.getElem?_mem hd)
        simp [failsAt, hd, hio.2 path hmem]
      | _ => simp [failsAt, hd]
  | _ => rfl

theorem ctxInv_step {w : World} {s s1 : State} {a : Action} (hnf : failsAt w s a = false)
    (hI : Inv w s) (hC : CtxInv s) (h : step w s a = some s1) : CtxInv s1 := by
  cases a with
  | cancel deadline =>
    obtain ⟨hp, err, -, rfl⟩ := step_cancel h
    have h1 : s.outerCtx = none := by
      cases hx : s.outerCtx with
      | none => rfl
      | some e => simp [hC.outerCtx e hx] at hp
    have h2 : s.innerCtx = none := by
      cases hx : s.innerCtx with
      | none => rfl
      | some e => simp [hC.innerCtx e hx] at hp
    have h3 : s.outerErr = none := by
      cases hx : s.outerErr with
      | none => rfl
      | some e => simp [hC.outerErr e hx] at hp
    have h4 : s.innerErr = none := by
      cases hx : s.innerErr with
      | none => rfl
      | some e => simp [hC.innerErr e hx] at hp
    constructor <;> simp [h1, h2, h3, h4]
  | walkerCall =>
    obtain ⟨c, rest, hw, ⟨err, herr, rfl⟩ | ⟨hnone, hreg, rfl⟩⟩ := step_walkerCall h
    · simp [failsAt, hw, herr] at hnf
    · exact ⟨hC.outerCtx, hC.innerCtx, hC.outerErr, hC.innerErr⟩
  | walkerReturn =>
    obtain ⟨hw, rfl⟩ := step_walkerReturn h
    exact ⟨hC.outerCtx, hC.innerCtx, hC.outerErr, hC.innerErr⟩
  | walkerCtx =>
    obtain ⟨c, rest, err, hw, hreg, hctx, rfl⟩ := step_walkerCtx h
    exact ctxInv_returnInner hC hctx _ rfl rfl rfl rfl rfl
  | job i =>
    obtain ⟨c, rest, hw, hreg, hd, rfl⟩ := step_job h
    exact ⟨hC.outerCtx, hC.innerCtx, hC.outerErr, hC.innerErr⟩
  | digCtx i =>
    obtain ⟨d, err, hd, hkind, hctx, rfl⟩ := step_digCtx h
    exact ctxInv_returnInner hC hctx _ rfl rfl rfl rfl rfl
  | digClosed i =>
    obtain ⟨hd, hj, rfl⟩ := step_digClosed h
    exact ⟨hC.outerCtx, hC.innerCtx, hC.outerErr, hC.innerErr⟩
  | digHash i =>
    obtain ⟨path, hd, ⟨err, herr, rfl⟩ | ⟨sum, hsum, rfl⟩⟩ := step_digHash h
    · simp [failsAt, hd, herr] at hnf
    · exact ⟨hC.outerCtx, hC.innerCtx, hC.outerErr, hC.innerErr⟩
  | result i =>
    obtain ⟨cs, hd, hc, rfl⟩ := step_result h
    exact ⟨hC.outerCtx, hC.innerCtx, hC.outerErr, hC.innerErr⟩
  | collCtx =>
    obtain ⟨err, hc, hctx, rfl⟩ := step_collCtx h
    exact ctxInv_returnOuter hI hC (hC.outerCtx err hctx) _ rfl rfl rfl rfl rfl
  | collClosed =>
    obtain ⟨hc, hr, rfl⟩ := step_collClosed h
    exact ⟨hC.outerCtx, hC.innerCtx, hC.outerErr, hC.innerErr⟩
  | fetcherReturn =>
    obtain ⟨hf, hw, hds, rfl⟩ := step_fetcherReturn h
    cases hie : s.innerErr with
    | none => exact ⟨hC.outerCtx, hC.innerCtx, hC.outerErr, by simp [returnOuter, hie]⟩
    | some e =>
      exact ctxInv_returnOuter hI hC (hC.innerErr e hie) _ rfl rfl rfl rfl hie.symm

theorem ctxInv_init (w : World) (k : Nat) : CtxInv (initWith w k) := by
  constructor <;> simp [initWith]

theorem ctxInv_run {w : World} {s s1 : State} {acts : List Action} (hio : NoIOError w)
    (hI : Inv w s) (hC : CtxInv s) (h : run w s acts = some s1) : CtxInv s1 := by
  induction acts generalizing s with
  | nil =>
    simp only [run, Option.some.injEq] at h
    exact h ▸ hC
  | cons a rest ih =>
    obtain ⟨s0, hs, hr⟩ := run_cons h
    exact ih (inv_step hI hs) (ctxInv_step (failsAt_of_noIOError a hio hI) hI hC hs) hr

theorem ctxInv_run_free {w : World} {s s1 : State} {acts : List Action}
    (hff : failFree w s acts = true) (hI : Inv w s) (hC : CtxInv s)
    (h : run w s acts = some s1) : CtxInv s1 := by
  induction acts generalizing s with
  | nil =>
    simp only [run, Option.some.injEq] at h
    exact h ▸ hC
  | cons a rest ih =>
    obtain ⟨s0, hs, hr⟩ := run_cons h
    simp only [failFree, hs, Bool.and_eq_true, Bool.not_eq_true'] at hff
    exact ih hff.2 (inv_step hI hs) (ctxInv_step hff.1 hI hC hs) hr

theorem run_split {w : World} {s s2 : State} {acts more : List Action}
    (h : run w s (acts ++ more) = some s2) :
    ∃ s1, run w s acts = some s1 ∧ run w s1 more = some s2 := by
  induction acts generalizing s with
  | nil => exact ⟨s, rfl, h⟩
  | cons a rest ih =>
    obtain ⟨s0, hs, hr⟩ := run_cons h
    obtain ⟨s1, h1, h2⟩ := ih hr
    exact ⟨s1, by simp only [run, hs]; exact h1, h2⟩

theorem parent_step {w : World} {s s1 : State} {a : Action}
    (h : step w s a = some s1) :
    (a.isTask = true → s1.parentErr = s.parentErr) ∧
    (∀ d, a = .cancel d → s.parentErr = none ∧ s1.parentErr = some (cause d)) := by
  cases a with
  | cancel deadline =>
    obtain ⟨hp, err, herr, rfl⟩ := step_cancel h
    simp [Action.isTask, hp, herr]
  | walkerCall =>
    obtain ⟨c, rest, hw, ⟨err, herr, rfl⟩ | ⟨hnone, hreg, rfl⟩⟩ := step_walkerCall h <;>
      simp [walkerReturns, returnInner]
  | walkerReturn => obtain ⟨hw, rfl⟩ := step_walkerReturn h; simp [walkerReturns, returnInner]
  | walkerCtx =>
    obtain ⟨c, rest, err, hw, hreg, hctx, rfl⟩ := step_walkerCtx h
    simp [walkerReturns, returnInner]
  | job i => obtain ⟨c, rest, hw, hreg, hd, rfl⟩ := step_job h; simp
  | digCtx i =>
    obtain ⟨d, err, hd, hkind, hctx, rfl⟩ := step_digCtx h
    simp [digesterReturns, returnInner]
  | digClosed i =>
    obtain ⟨hd, hj, rfl⟩ := step_digClosed h
    simp [digesterReturns, returnInner]
  | digHash i =>
    obtain ⟨path, hd, ⟨err, herr, rfl⟩ | ⟨sum, hsum, rfl⟩⟩ := step_digHash h <;>
      simp [digesterReturns, returnInner]
  | result i => obtain ⟨cs, hd, hc, rfl⟩ := step_result h; simp
  | collCtx => obtain ⟨err, hc, hctx, rfl⟩ := step_collCtx h; simp [returnOuter]
  | collClosed => obtain ⟨hc, hr, rfl⟩ := step_collClosed h; simp
  | fetcherReturn =>
    obtain ⟨hf, hw, hds, rfl⟩ := step_fetcherReturn h
    simp [(returnOuter_frame _ _).1]

theorem parent_run {w : World} {s s1 : State} {acts : List Action}
    (h : run w s acts = some s1) :
    (s1.parentErr = s.parentErr ∧ ∀ a ∈ acts, a.isTask = true) ∨
      ∃ d, .cancel d ∈ acts ∧ s1.parentErr = some (cause d) := by
  induction acts generalizing s with
  | nil =>
    simp only [run, Option.some.injEq] at h
    exact Or.inl ⟨by rw [h], by simp⟩
  | cons a rest ih =>
    obtain ⟨s0, hs, hr⟩ := run_cons h
    rcases ih hr with ⟨hsame, htask⟩ | ⟨d, hd, hp⟩
    · cases hta : a.isTask with
      | true =>
        left
        refine ⟨by rw [hsame, (parent_step hs).1 hta], ?_⟩
        intro b hb
        rcases List.mem_cons.mp hb with rfl | hb
        · exact hta
        · exact htask b hb
      | false =>
        right
        cases a with
        | cancel d =>
          exact ⟨d, List.mem_cons_self _ _, by rw [hsame]; exact ((parent_step hs).2 d rfl).2⟩
        | _ => simp [Action.isTask] at hta
    · exact Or.inr ⟨d, List.mem_cons_of_mem _ hd, hp⟩

theorem errors_run {w : World} {s s1 : State} {acts : List Action}
    (h : run w s acts = some s1) :
    (s.innerErr.isSome = true → s1.innerErr.isSome = true) ∧
    (s.outerErr.isSome = true → s1.outerErr.isSome = true) := by
  induction acts generalizing s with
  | nil =>
    simp only [run, Option.some.injEq] at h
    subst h
    exact ⟨id, id⟩
  | cons a rest ih =>
    obtain ⟨s0, hs, hr⟩ := run_cons h
    have h1 := errors_step hs
    have h2 := ih hr
    exact ⟨fun hi => h2.1 (h1.1 hi), fun ho => h2.2 (h1.2.1 ho)⟩

theorem observed_run {w : World} {s s1 : State} {acts : List Action}
    (h : run w s acts = some s1) (hobs : ∃ a ∈ acts, a.isCtxBranch = true) :
    s1.innerErr.isSome = true ∨ s1.outerErr.isSome = true := by
  induction acts generalizing s with
  | nil => simp at hobs
  | cons a rest ih =>
    obtain ⟨s0, hs, hr⟩ := run_cons h
    obtain ⟨b, hb, hctx⟩ := hobs
    rcases List.mem_cons.mp hb with rfl | hb
    · have h1 := errors_step hs
      have h2 := errors_run hr
      cases b with
      | walkerCtx => exact Or.inl (h2.1 (h1.2.2.1 (Or.inl rfl)))
      | digCtx i => exact Or.inl (h2.1 (h1.2.2.1 (Or.inr (Or.inl ⟨i, rfl⟩))))
      | collCtx => exact Or.inr (h2.2 (h1.2.2.2 rfl))
      | _ => simp [Action.isCtxBranch] at hctx
    · exact ih hr ⟨b, hb, hctx⟩

/-! ## What checksumTree returns -/

theorem checksumTree_done {s : State} {ret : List fileChecksum × Option GoError}
    (h : checksumTree s = some ret) :
    s.collector.isDone = true ∧ s.fetcher.isDone = true := by
  simp only [checksumTree] at h
  split at h
  · simp [Collector.isDone, Fetcher.isDone, *]
  · simp at h

theorem checksumTree_eq {s : State} (hc : s.collector.isDone = true)
    (hf : s.fetcher.isDone = true) :
    checksumTree s = match s.outerErr with
      | some err => some ([], some (Errorf (ascii "Error checksumming tree: %w") err))
      | none => some (sortSlice lessByPath s.fileChecksums, none) := by
  simp only [checksumTree]
  split
  · rfl
  · rename_i hne
    cases hc1 : s.collector with
    | running => simp [hc1, Collector.isDone] at hc
    | done r1 =>
      cases hf1 : s.fetcher with
      | waiting => simp [hf1, Fetcher.isDone] at hf
      | done r2 => exact absurd hf1 (hne r1 r2 hc1)

theorem checksumTree_allReturned {w : World} {s : State}
    {ret : List fileChecksum × Option GoError} (hI : Inv w s)
    (h : checksumTree s = some ret) : allReturned s = true := by
  obtain ⟨hc, hf⟩ := checksumTree_done h
  have hw := hI.waited hf
  simp only [allReturned, hw.1, hc, hf, Bool.and_true, Bool.true_and, List.all_eq_true]
  exact hw.2

theorem checksumTree_failure {w : World} {s : State}
    {ret : List fileChecksum × Option GoError} (hI : Inv w s)
    (h : checksumTree s = some ret)
    (herr : s.innerErr.isSome = true ∨ s.outerErr.isSome = true) :
    ∃ err, s.outerErr = some err ∧
      ret = ([], some (Errorf (ascii "Error checksumming tree: %w") err)) := by
  obtain ⟨hc, hf⟩ := checksumTree_done h
  have ho : s.outerErr.isSome = true := by
    rcases herr with hi | ho
    · exact hI.fetcherErr hf hi
    · exact ho
  obtain ⟨err, he⟩ := Option.isSome_iff_exists.mp ho
  rw [checksumTree_eq hc hf, he] at h
  exact ⟨err, he, by simpa using h.symm⟩

theorem checksumTree_success {w : World} {s : State} {l : List fileChecksum}
    (hI : Inv w s) (h : checksumTree s = some (l, none)) :
    s.outerErr = none ∧ s.innerErr = none ∧ l = sortSlice lessByPath s.fileChecksums ∧
      (s.fileChecksums.map fileChecksum.Path).Perm (regularFiles w.root w.tree) := by
  obtain ⟨hc, hf⟩ := checksumTree_done h
  have ho : s.outerErr = none := by
    cases ho : s.outerErr with
    | none => rfl
    | some err =>
      rw [checksumTree_eq hc hf, ho] at h
      simp at h
  have hi : s.innerErr = none := by
    cases hi : s.innerErr with
    | none => rfl
    | some err =>
      have := hI.fetcherErr hf (by simp [hi])
      simp [ho] at this
  rw [checksumTree_eq hc hf, ho] at h
  refine ⟨ho, hi, by simpa using h.symm, ?_⟩
  have hw := hI.waited hf
  have hcons := hI.conserve hi
  have hpend : s.walker.pending = [] := by
    cases hwk : s.walker with
    | walking cs => simp [hwk, Walker.isDone] at hw
    | done r => rfl
  have hinf : inflight s.digesters = [] := by
    simp only [inflight, List.flatMap_eq_nil_iff]
    intro d hd
    have := hw.2 d hd
    cases d <;> simp [Digester.isDone] at this
    rfl
  rw [hpend, hinf, regularPaths_walkCalls] at hcons
  simpa using hcons

/-! ## Digests and output -/

theorem leBytes_length (n x : Nat) : (leBytes n x).length = n := by
  induction n generalizing x with
  | zero => rfl
  | succ n ih => simp [leBytes, ih]

theorem md5Sum_length (msg : List Nat) : (md5Sum msg).length = 16 := by
  simp [md5Sum, leBytes_length]

theorem hexEncode_length (l : List Nat) : (hexEncode l).length = 2 * l.length := by
  induction l with
  | nil => rfl
  | cons b rest ih => simp [hexEncode, ih]; omega

theorem hextable_lower : ∀ n, n < 16 → isLowerHex (hextable.getD n 0) = true := by
  decide

theorem hexEncode_lower (l : List Nat) : ∀ c ∈ hexEncode l, isLowerHex c = true := by
  induction l with
  | nil => simp [hexEncode]
  | cons b rest ih =>
    intro c hc
    simp only [hexEncode, List.mem_cons] at hc
    rcases hc with rfl | rfl | hc
    · exact hextable_lower _ (Nat.mod_lt _ (by decide))
    · exact hextable_lower _ (Nat.mod_lt _ (by decide))
    · exact ih c hc

theorem chunks_append_exact {α : Type} (size : Nat) :
    ∀ (n m : Nat) (l1 l2 : List α), l1.length = size * n →
      chunks size (n + m) (l1 ++ l2) = chunks size n l1 ++ chunks size m l2
  | 0, m, l1, l2, h => by
    have : l1 = [] := List.length_eq_zero.mp (by simpa using h)
    subst this
    simp [chunks]
  | n + 1, m, l1, l2, h => by
    have hlen : size ≤ l1.length := by rw [h, Nat.mul_succ]; exact Nat.le_add_left _ _
    have hdrop : (l1.drop size).length = size * n := by
      rw [List.length_drop, h, Nat.mul_succ]; simp
    rw [Nat.add_right_comm]
    simp only [chunks, List.take_append_of_le_length hlen,
      List.drop_append_of_le_length hlen, List.cons_append]
    rw [chunks_append_exact size n m _ _ hdrop]

theorem absorbed_write (d : digest) (data p : List Nat) (h : Absorbed d data) :
    Absorbed (d.Write p) (data ++ p) := by
  obtain ⟨hs, hx, hl⟩ := h
  have hxlen : d.x.length = data.length - 64 * (data.length / 64) := by
    rw [hx, List.length_drop]
  have hk : (data.take (64 * (data.length / 64))).length = 64 * (data.length / 64) := by
    rw [List.length_take]; omega
  have hdata : data ++ p = data.take (64 * (data.length / 64)) ++ (d.x ++ p) := by
    rw [hx, ← List.append_assoc, List.take_append_drop]
  have hn : (data ++ p).length / 64 = data.length / 64 + (d.x ++ p).length / 64 := by
    simp only [List.length_append, hxlen]; omega
  have hfirst : chunks 64 (data.length / 64) (data.take (64 * (data.length / 64)))
      = chunks 64 (data.length / 64) data := by
    have := chunks_append_exact 64 (data.length / 64) 0 _
      (data.drop (64 * (data.length / 64))) hk
    simpa [chunks, List.take_append_drop] using this.symm
  refine ⟨?_, ?_, ?_⟩
  · show (chunks 64 ((d.x ++ p).length / 64) (d.x ++ p)).foldl md5Block d.s = _
    rw [hn, hdata, chunks_append_exact 64 _ _ _ _ hk, List.foldl_append, hfirst, ← hs]
  · show (d.x ++ p).drop (64 * ((d.x ++ p).length / 64)) = _
    have hd := @List.drop_append _ (data.take (64 * (data.length / 64))) (d.x ++ p)
      (64 * ((d.x ++ p).length / 64))
    rw [hk] at hd
    rw [hn, hdata, Nat.mul_add, hd]
  · show (d.len + p.length) % 2 ^ 64 = _
    rw [hl, List.length_append]
    omega

theorem absorbed_copy (reads : List (List Nat)) :
    ∀ (d : digest) (data : List Nat), Absorbed d data →
      Absorbed (ioCopy d reads) (data ++ reads.flatten) := by
  induction reads with
  | nil => intro d data h; simpa [ioCopy] using h
  | cons r rest ih =>
    intro d data h
    have := ih (d.Write r) (data ++ r) (absorbed_write d data r h)
    simpa [ioCopy, List.flatten_cons, List.append_assoc] using this

theorem absorbed_sum (d : digest) (data : List Nat) (h : Absorbed d data) :
    d.Sum = md5Sum data := by
  have hl := h.2.2
  have hpad : data ++ (0x80 :: List.replicate ((55 + 64 - d.len % 64) % 64) 0
      ++ leBytes 8 ((8 * d.len) % 2 ^ 64)) = md5Pad data := by
    have e1 : d.len % 64 = data.length % 64 := by rw [hl]; omega
    have e2 : (8 * d.len) % 2 ^ 64 = (8 * data.length) % 2 ^ 64 := by rw [hl]; omega
    rw [e1, e2]
    simp only [md5Pad, List.append_assoc, List.cons_append]
  have hw := (absorbed_write d data (0x80 :: List.replicate ((55 + 64 - d.len % 64) % 64) 0
      ++ leBytes 8 ((8 * d.len) % 2 ^ 64)) h).1
  rw [hpad] at hw
  simp only [digest.Sum, md5Sum]
  rw [hw]

/-- The streaming digest of the program computes the MD5 digest of the
whole content, however the reads cut it. -/
theorem copy_sum (reads : List (List Nat)) :
    (ioCopy digest.New reads).Sum = md5Sum reads.flatten := by
  have h0 : Absorbed digest.New [] := ⟨rfl, rfl, rfl⟩
  have := absorbed_copy reads digest.New [] h0
  simpa using absorbed_sum _ _ this

theorem md5SumFile_content {w : World} {p sum : GoString}
    (h : md5SumFile w p = (sum, none)) :
    ∃ reads, w.read p = .content reads ∧ sum = hexEncode (md5Sum reads.flatten) := by
  simp only [md5SumFile] at h
  split at h
  · simp at h
  · simp at h
  · rename_i reads hb
    exact ⟨reads, hb, by rw [← copy_sum]; simpa using h.symm⟩

theorem Sprintf_line (fc : fileChecksum) :
    Sprintf (ascii "%s %s\n") [fc.Checksum, fc.Path] = line fc := by
  have : ascii "%s %s\n" = [37, 115, 32, 37, 115, 10] := by decide
  rw [this]
  simp [Sprintf, line]

theorem main_stdout (l : List fileChecksum) (err : Option GoError) :
    (main (l, err)).stdout = l.flatMap line := by
  have h : ∀ (l : List fileChecksum) (acc : GoString),
      l.foldl (fun out fc => out ++ line fc) acc = acc ++ l.flatMap line := by
    intro l
    induction l with
    | nil => simp
    | cons fc rest ih =>
      intro acc
      simp [List.foldl_cons, ih, List.flatMap_cons]
  simp [main, Sprintf_line, h]

/-! ## Complete runs -/

theorem checksumTreeWith_some {k : Nat} {w : World} {acts : List Action}
    {ret : List fileChecksum × Option GoError} (h : checksumTreeWith k w acts = some ret) :
    ∃ s, run w (initWith w k) acts = some s ∧ checksumTree s = some ret ∧ Inv w s := by
  obtain ⟨s, hs, hc⟩ := Option.bind_eq_some.mp h
  exact ⟨s, hs, hc, inv_run (inv_init w k) hs⟩

theorem checksumTreeRun_some {w : World} {acts : List Action}
    {ret : List fileChecksum × Option GoError} (h : checksumTreeRun w acts = some ret) :
    ∃ s, run w (init w) acts = some s ∧ checksumTree s = some ret ∧ Inv w s :=
  checksumTreeWith_some h

theorem success_perm {k : Nat} {w : World} {acts : List Action} {l : List fileChecksum}
    (h : checksumTreeWith k w acts = some (l, none)) :
    (l.map fileChecksum.Path).Perm (regularFiles w.root w.tree) ∧
      ∀ r ∈ l, md5SumFile w r.Path = (r.Checksum, none) := by
  obtain ⟨s, -, hc, hI⟩ := checksumTreeWith_some h
  obtain ⟨-, -, hl, hperm⟩ := checksumTree_success hI hc
  have hp : l.Perm s.fileChecksums := hl ▸ sortSlice_perm _ _
  exact ⟨(hp.map _).trans hperm, fun r hr => hI.collected r (hp.mem_iff.mp hr)⟩

/-- Without errors of the file system and without cancellation the
goroutines run to completion and `checksumTree` returns a list and `nil`. -/
theorem success_exists (w : World) (hio : NoIOError w) :
    ∃ acts l, checksumTreeRun w acts = some (l, none) := by
  have hlen : 0 < (init w).digesters.length := by simp [init, initWith, maxDigesters]
  obtain ⟨acts, s1, htask, hrun, hall⟩ :=
    exists_completion (fuel (init w)) (init w) (Nat.le_refl _) (inv_init w _) hlen
  have hI := inv_run (inv_init w _) hrun
  have hC := ctxInv_run hio (inv_init w _) (ctxInv_init w _) hrun
  have hp : s1.parentErr = none := by
    rcases parent_run hrun with ⟨hsame, -⟩ | ⟨d, hd, -⟩
    · rw [hsame]; rfl
    · have := htask _ hd
      simp [Action.isTask] at this
  have ho : s1.outerErr = none := by
    cases ho : s1.outerErr with
    | none => rfl
    | some e => simp [hC.outerErr e ho] at hp
  simp only [allReturned, Bool.and_eq_true] at hall
  refine ⟨acts, sortSlice lessByPath s1.fileChecksums, ?_⟩
  simp only [checksumTreeRun, hrun, Option.some_bind]
  rw [checksumTree_eq hall.1.2 hall.2, ho]

/-! # The claims -/

/-- C1: in every run in which `checksumTree` returns a nil error the
returned list is in ascending order of `Path` under bytewise comparison:
for all indices `i < j`, `list[i].Path <= list[j].Path`, whatever the order
in which the collector appended the records. -/
theorem C1_sorted_by_path (w : World) (acts : List Action) (l : List fileChecksum)
    (h : checksumTreeRun w acts = some (l, none)) :
    ∀ (i j : Nat) (hij : i < j) (hj : j < l.length),
      strLe (l[i]).Path (l[j]).Path = true := by
  obtain ⟨s, -, hc, hI⟩ := checksumTreeRun_some h
  obtain ⟨-, -, hl, -⟩ := checksumTree_success hI hc
  have hs := sortSlice_sorted s.fileChecksums
  rw [← hl] at hs
  intro i j hij hj
  exact List.pairwise_iff_getElem.mp hs i j (by omega) hj hij

/-- C1 at a run on two files in which `b.txt` reaches the collector before
`a.txt`: the list returned starts with `a.txt`. -/
theorem C1_sorted_by_path_witness :
    checksumTreeRun twoWorld runBA
        = some ([⟨ascii "d/a.txt", helloSum⟩, ⟨ascii "d/b.txt", helloSum⟩], none) ∧
      strLe (ascii "d/a.txt") (ascii "d/b.txt") = true :=
  ⟨by decide!,
    C1_sorted_by_path twoWorld runBA
      [⟨ascii "d/a.txt", helloSum⟩, ⟨ascii "d/b.txt", helloSum⟩] (by decide!) 0 1
      (by decide) (by decide)⟩

/-- C2: when `checksumTree` succeeds the returned list holds exactly one
record for each regular file of the tree (its paths are a permutation of
the regular files, so it holds none for a directory, a symbolic link or a
special file), with pairwise distinct paths when the tree is one a file
system can hold; an empty directory gives the empty list, and a directory
holding `sub/b.txt` and a symbolic link to it gives the record of
`sub/b.txt` alone.  Without errors of the file system a successful run
exists. -/
theorem C2_one_record_per_regular_file (w : World) (acts : List Action)
    (l : List fileChecksum) (h : checksumTreeRun w acts = some (l, none)) :
    (l.map fileChecksum.Path).Perm (regularFiles w.root w.tree) ∧
    (w.tree.wellFormed = true → (l.map fileChecksum.Path).Nodup) ∧
    (w.tree = .dir [] → l = []) ∧
    (w.tree = .dir [(ascii "link", .leaf .symlink),
        (ascii "sub", .dir [(ascii "b.txt", .leaf .regular)])] →
      l.map fileChecksum.Path = [Join (Join w.root (ascii "sub")) (ascii "b.txt")]) ∧
    (NoIOError w → ∃ acts1 l1, checksumTreeRun w acts1 = some (l1, none)) := by
  have hperm := (success_perm h).1
  refine ⟨hperm, ?_, ?_, ?_, success_exists w⟩
  · intro hwf
    exact hperm.nodup_iff.mpr (regularFiles_nodup w.root w.tree hwf)
  · intro ht
    rw [ht] at hperm
    simpa [regularFiles, regularFilesIn] using hperm
  · intro ht
    rw [ht] at hperm
    simpa [regularFiles, regularFilesIn] using hperm

/-- C2 at the directory holding `sub/b.txt` and a symbolic link to it,
walked from the root `.`: the one record has the path `sub/b.txt`. -/
theorem C2_one_record_per_regular_file_witness :
    checksumTreeRun dotWorld linkRun = some ([⟨ascii "sub/b.txt", helloSum⟩], none) ∧
      ([⟨ascii "sub/b.txt", helloSum⟩] : List fileChecksum).map fileChecksum.Path
        = [Join (Join dotWorld.root (ascii "sub")) (ascii "b.txt")] ∧
      Join (Join (ascii ".") (ascii "sub")) (ascii "b.txt") = ascii "sub/b.txt" ∧
      Join (Join (ascii "d/") (ascii "sub")) (ascii "b.txt") = ascii "d/sub/b.txt" ∧
      Join (Join (ascii "/") (ascii "sub")) (ascii "b.txt") = ascii "/sub/b.txt" :=
  ⟨by decide!,
    (C2_one_record_per_regular_file dotWorld linkRun [⟨ascii "sub/b.txt", helloSum⟩]
      (by decide!)).2.2.2.1 rfl,
    by decide!, by decide!, by decide!⟩

/-- C3: in a successful result the `Checksum` of every record is the
hexadecimal encoding (32 lowercase digits) of the MD5 digest of the whole
content of the file at `Path`, however the reads of `io.Copy` cut it, so it
depends on the content only; for the content `hello` it is
`5d41402abc4b2a76b9719d911017c592`, and for an empty file `md5SumFile`
returns the digest of zero bytes and no error.  The digest is the one of
RFC 1321: it passes the test suite of the RFC, whose last messages fill
more than one block, and gives the digest of 200 bytes `a`, which fill
four. -/
theorem C3_checksum_is_md5_of_content (w : World) (acts : List Action)
    (l : List fileChecksum) (h : checksumTreeRun w acts = some (l, none)) :
    (∀ r ∈ l, ∃ reads, w.read r.Path = .content reads ∧
        r.Checksum = hexEncode (md5Sum reads.flatten) ∧ r.Checksum.length = 32 ∧
        ∀ c ∈ r.Checksum, isLowerHex c = true) ∧
    (∀ r1 ∈ l, ∀ r2 ∈ l, ∀ reads1 reads2, w.read r1.Path = .content reads1 →
      w.read r2.Path = .content reads2 → reads1.flatten = reads2.flatten →
      r1.Checksum = r2.Checksum) ∧
    (∀ p reads, w.read p = .content reads → reads.flatten = ascii "hello" →
      md5SumFile w p = (ascii "5d41402abc4b2a76b9719d911017c592", none)) ∧
    (∀ p reads, w.read p = .content reads → reads.flatten = [] →
      md5SumFile w p = (ascii "d41d8cd98f00b204e9800998ecf8427e", none)) ∧
    (∀ p reads, w.read p = .content reads →
      md5SumFile w p = (hexEncode (md5Sum reads.flatten), none)) ∧
    hexEncode (md5Sum (ascii "a")) = ascii "0cc175b9c0f1b6a831c399e269772661" ∧
    hexEncode (md5Sum (ascii "abc")) = ascii "900150983cd24fb0d6963f7d28e17f72" ∧
    hexEncode (md5Sum (ascii "message digest")) = ascii "f96b697d7cb7938d525a2f31aaf161d0" ∧
    hexEncode (md5Sum (ascii "abcdefghijklmnopqrstuvwxyz"))
      = ascii "c3fcd3d76192e4007dfb496cca67e13b" ∧
    hexEncode (md5Sum
        (ascii "ABCDEFGHIJKLMNOPQRSTUVWXYZabcdefghijklmnopqrstuvwxyz0123456789"))
      = ascii "d174ab98d277d9f5a5611c2c9f419d9f" ∧
    hexEncode (md5Sum (ascii
        "12345678901234567890123456789012345678901234567890123456789012345678901234567890"))
      = ascii "57edf4a22be3c955ac49da2e2107b67a" ∧
    hexEncode (md5Sum (List.replicate 200 97)) = ascii "887f30b43b2867f4a9accceee7d16e6c" := by
  have hrec := (success_perm h).2
  have hfile : ∀ p reads, w.read p = .content reads →
      md5SumFile w p = (hexEncode (md5Sum reads.flatten), none) := by
    intro p reads hp
    simp [md5SumFile, hp, copy_sum]
  refine ⟨?_, ?_, ?_, ?_, hfile, by decide!, by decide!, by decide!, by decide!,
    by decide!, by decide!, by decide!⟩
  · intro r hr
    obtain ⟨reads, hb, hsum⟩ := md5SumFile_content (hrec r hr)
    refine ⟨reads, hb, hsum, ?_, ?_⟩
    · rw [hsum, hexEncode_length, md5Sum_length]
    · rw [hsum]
      exact hexEncode_lower _
  · intro r1 hr1 r2 hr2 reads1 reads2 h1 h2 heq
    have e1 := hrec r1 hr1
    have e2 := hrec r2 hr2
    rw [hfile _ _ h1] at e1
    rw [hfile _ _ h2, ← heq] at e2
    simp only [Prod.mk.injEq, and_true] at e1 e2
    rw [← e1, ← e2]
  · intro p reads hp hc
    have : hexEncode (md5Sum (ascii "hello")) = ascii "5d41402abc4b2a76b9719d911017c592" := by
      decide!
    rw [hfile p reads hp, hc, this]
  · intro p reads hp hc
    have : hexEncode (md5Sum []) = ascii "d41d8cd98f00b204e9800998ecf8427e" := by
      decide!
    rw [hfile p reads hp, hc, this]

/-- C3 at a run on two files with the same content, one of them returned
by `io.Copy` in two reads. -/
theorem C3_checksum_is_md5_of_content_witness :
    checksumTreeRun twoWorld runAB
        = some ([⟨ascii "d/a.txt", helloSum⟩, ⟨ascii "d/b.txt", helloSum⟩], none) ∧
      twoWorld.read (ascii "d/a.txt") = .content [ascii "hel", ascii "lo"] ∧
      md5SumFile twoWorld (ascii "d/a.txt")
        = (ascii "5d41402abc4b2a76b9719d911017c592", none) :=
  ⟨by decide!, by decide,
    (C3_checksum_is_md5_of_content twoWorld runAB
      [⟨ascii "d/a.txt", helloSum⟩, ⟨ascii "d/b.txt", helloSum⟩] (by decide!)).2.2.1
      (ascii "d/a.txt") [ascii "hel", ascii "lo"] (by decide) (by decide)⟩

/-- C4: when `checksumTree` returns a non-nil error the list it returns
with it is nil, whatever the collector had appended, and `main` writes
nothing to standard output (the error goes to standard error). -/
theorem C4_no_partial_result (w : World) (acts : List Action) (l : List fileChecksum)
    (err : GoError) (h : checksumTreeRun w acts = some (l, some err)) :
    l = [] ∧ ∃ p, program w acts = some p ∧ p.stdout = [] ∧
      p.stderr = err.Error ++ ascii "\n" := by
  obtain ⟨s, -, hc, hI⟩ := checksumTreeRun_some h
  obtain ⟨hcd, hfd⟩ := checksumTree_done hc
  have hl : l = [] := by
    rw [checksumTree_eq hcd hfd] at hc
    split at hc
    · simp only [Option.some.injEq, Prod.mk.injEq] at hc
      exact hc.1.symm
    · simp at hc
  refine ⟨hl, main (l, some err), by simp [program, h], ?_, ?_⟩
  · rw [main_stdout, hl]
    rfl
  · have e1 : ascii "%v\n" = [37, 118, 10] := by decide
    have e2 : ascii "\n" = [10] := by decide
    simp [main, e1, e2, Sprintf]

/-- C4 at a run in which the collector has appended the record of `a.txt`
when `md5SumFile` fails on `c.txt`. -/
theorem C4_no_partial_result_witness :
    (run brokenWorld (init brokenWorld) (brokenStart ++ [.digHash 1])).map
        (fun s => s.fileChecksums) = some [⟨ascii "d/a.txt", helloSum⟩] ∧
      checksumTreeRun brokenWorld (brokenStart ++ .digHash 1 :: brokenEnd)
        = some ([], some (Errorf (ascii "Error checksumming tree: %w")
            (.os (ascii "no such file or directory")))) ∧
      ([] : List fileChecksum) = [] :=
  ⟨by decide!, by decide!,
    (C4_no_partial_result brokenWorld (brokenStart ++ .digHash 1 :: brokenEnd) []
      (Errorf (ascii "Error checksumming tree: %w") (.os (ascii "no such file or directory")))
      (by decide!)).1⟩

/-- C5: when the callback of the walker receives a traversal error, or
`md5SumFile` fails in a digester, the goroutine returns that error (the
walker does not go on to the next entry, the digester neither retries nor
takes another path), every completion of the run makes `checksumTree`
return a non-nil error and no list, and the run can be completed. -/
theorem C5_errors_fail_the_run (w : World) (pre : List Action) (s0 : State) (a : Action)
    (hpre : run w (init w) pre = some s0) (hfail : failsAt w s0 a = true) :
    (∃ s1, step w s0 a = some s1 ∧
      (∀ c rest, a = .walkerCall → s0.walker = .walking (c :: rest) →
        s1.walker = .done c.err) ∧
      (∀ i path, a = .digHash i → s0.digesters[i]? = some (.hashing path) →
        s1.digesters[i]? = some (.done (md5SumFile w path).2))) ∧
    (∀ post ret, checksumTreeRun w (pre ++ a :: post) = some ret →
      ret.1 = [] ∧ ret.2.isSome = true) ∧
    (∃ post ret, checksumTreeRun w (pre ++ a :: post) = some ret) := by
  have hI0 := inv_run (inv_init w _) hpre
  have hlen0 : 0 < s0.digesters.length := by
    rw [length_run hpre]
    simp [init, initWith, maxDigesters]
  -- the step is enabled and the goroutine returns the error
  have hstep : ∃ s1, step w s0 a = some s1 ∧
      (∀ c rest, a = .walkerCall → s0.walker = .walking (c :: rest) →
        s1.walker = .done c.err) ∧
      (∀ i path, a = .digHash i → s0.digesters[i]? = some (.hashing path) →
        s1.digesters[i]? = some (.done (md5SumFile w path).2)) := by
    cases a with
    | walkerCall =>
      cases hw : s0.walker with
      | done r => simp [failsAt, hw] at hfail
      | walking calls =>
        cases calls with
        | nil => simp [failsAt, hw] at hfail
        | cons c rest =>
          simp only [failsAt, hw] at hfail
          obtain ⟨e, he⟩ := Option.isSome_iff_exists.mp hfail
          refine ⟨walkerReturns (some e) s0, by simp [step, hw, he], ?_, by simp⟩
          intro c1 rest1 _ hc1
          simp only [Walker.walking.injEq, List.cons.injEq] at hc1
          rw [← hc1.1, he]
          simp [walkerReturns, returnInner]
    | digHash i =>
      cases hd : s0.digesters[i]? with
      | none => simp [failsAt, hd] at hfail
      | some d =>
        cases d with
        | hashing path =>
          simp only [failsAt, hd] at hfail
          obtain ⟨e, he⟩ := Option.isSome_iff_exists.mp hfail
          have hm : md5SumFile w path = ((md5SumFile w path).1, some e) := by
            rw [← he]
          refine ⟨digesterReturns i (some e) s0, ?_, by simp, ?_⟩
          · simp only [step, hd]
            rw [hm]
          · intro i1 path1 hi1 hp1
            simp only [Action.digHash.injEq] at hi1
            subst hi1
            rw [hd] at hp1
            simp only [Option.some.injEq, Digester.hashing.injEq] at hp1
            subst hp1
            have hlt : i < s0.digesters.length := (List.getElem?_eq_some.mp hd).1
            simp [digesterReturns, returnInner, he, hlt]
        | _ => simp [failsAt, hd] at hfail
    | _ => simp [failsAt] at hfail
  obtain ⟨s1, hs1, hret⟩ := hstep
  have herr1 : s1.innerErr.isSome = true := (errors_step hs1).2.2.1 (Or.inr (Or.inr hfail))
  have hI1 := inv_step hI0 hs1
  refine ⟨⟨s1, hs1, hret⟩, ?_, ?_⟩
  · intro post ret hc
    obtain ⟨s2, hrun, hct, hI2⟩ := checksumTreeRun_some hc
    obtain ⟨sa, hra, hrb⟩ := run_split hrun
    rw [hpre, Option.some.injEq] at hra
    subst hra
    obtain ⟨sb, hsb, hrc⟩ := run_cons hrb
    rw [hs1, Option.some.injEq] at hsb
    subst hsb
    obtain ⟨e, -, hr⟩ := checksumTree_failure hI2 hct (Or.inl ((errors_run hrc).1 herr1))
    simp [hr]
  · obtain ⟨post, s2, -, hrun, hall⟩ :=
      exists_completion (fuel s1) s1 (Nat.le_refl _) hI1
        (by rw [length_step hs1]; exact hlen0)
    have hfull : run w (init w) (pre ++ a :: post) = some s2 :=
      run_append hpre (by simp only [run, hs1]; exact hrun)
    simp only [allReturned, Bool.and_eq_true] at hall
    have hI2 := inv_run hI1 hrun
    obtain ⟨ret, hret2⟩ : ∃ ret, checksumTree s2 = some ret := by
      rw [checksumTree_eq hall.1.2 hall.2]
      cases s2.outerErr <;> exact ⟨_, rfl⟩
    exact ⟨post, ret, by simp only [checksumTreeRun, hfull, Option.some_bind]; exact hret2⟩

/-- C5 at the run on `brokenWorld` in which digester 1 fails on `c.txt`
after the record of `a.txt` has been collected. -/
theorem C5_errors_fail_the_run_witness :
    ∃ s0, run brokenWorld (init brokenWorld) brokenStart = some s0 ∧
      failsAt brokenWorld s0 (.digHash 1) = true ∧
      ∀ post ret, checksumTreeRun brokenWorld (brokenStart ++ .digHash 1 :: post) = some ret →
        ret.1 = [] ∧ ret.2.isSome = true :=
  ⟨_, rfl, by decide!,
    (C5_errors_fail_the_run brokenWorld brokenStart _ (.digHash 1) rfl (by decide!)).2.1⟩

/-- C6, as the code behaves: on the root whose `Lstat` fails `checksumTree`
returns an error, `main` prints it to standard error and returns, and the
process ends with status 0; `main` ends with status 0 whatever
`checksumTree` returns. -/
theorem C6_exit_status_zero_on_failure :
    checksumTreeRun missingWorld missingRun
        = some ([], some (Errorf (ascii "Error checksumming tree: %w")
            (.os (ascii "lstat d: no such file or directory")))) ∧
      (program missingWorld missingRun).map Process.status = some 0 ∧
      ∀ ret, (main ret).status = 0 :=
  ⟨by decide!, by decide!, fun _ => rfl⟩

/-- C7: in a successful run the bytes `main` writes to standard output are
the lines `Checksum`, one space, `Path`, newline of the records, in the
order of the list `checksumTree` returns, and nothing else; standard error
stays empty. -/
theorem C7_stdout_lines (w : World) (acts : List Action) (l : List fileChecksum)
    (h : checksumTreeRun w acts = some (l, none)) :
    program w acts = some
      { stdout := l.flatMap (fun fc => fc.Checksum ++ ascii " " ++ fc.Path ++ ascii "\n"),
        stderr := [],
        status := 0 } := by
  have e1 : ascii " " = [32] := by decide
  have e2 : ascii "\n" = [10] := by decide
  have hl : (fun fc : fileChecksum => fc.Checksum ++ ascii " " ++ fc.Path ++ ascii "\n")
      = line := by
    funext fc
    simp [line, e1, e2]
  have hs := main_stdout l none
  rw [hl, ← hs]
  simp [program, h, main]

/-- C7 at the run on two files: the two lines, `a.txt` first. -/
theorem C7_stdout_lines_witness :
    program twoWorld runBA = some
      { stdout := ascii "5d41402abc4b2a76b9719d911017c592 d/a.txt\n5d41402abc4b2a76b9719d911017c592 d/b.txt\n",
        stderr := [],
        status := 0 } :=
  (C7_stdout_lines twoWorld runBA
    [⟨ascii "d/a.txt", helloSum⟩, ⟨ascii "d/b.txt", helloSum⟩] (by decide!)).trans (by decide)

/-- C8: two successful runs on the same tree return the same list,
whatever the number of digesters and the order in which the results reach
the collector; two arrival orders that are permutations of each other, with
pairwise distinct paths, are sorted into the same list, and that list is
the only sorted permutation, so it is what any sort by `Path`, stable or
not, returns. -/
theorem C8_deterministic_result (w : World) (k1 k2 : Nat) (acts1 acts2 : List Action)
    (l1 l2 : List fileChecksum) (hwf : w.tree.wellFormed = true)
    (h1 : checksumTreeWith k1 w acts1 = some (l1, none))
    (h2 : checksumTreeWith k2 w acts2 = some (l2, none))
    (arrival1 arrival2 : List fileChecksum) (hperm : arrival1.Perm arrival2)
    (hnodup : (arrival1.map fileChecksum.Path).Nodup) :
    l1 = l2 ∧
    sortSlice lessByPath arrival1 = sortSlice lessByPath arrival2 ∧
    (∀ out : List fileChecksum, out.Perm arrival1 →
      out.Pairwise (fun a b => strLe a.Path b.Path = true) →
      out = sortSlice lessByPath arrival2) := by
  have hnodup2 : (arrival2.map fileChecksum.Path).Nodup :=
    (hperm.map _).nodup_iff.mp hnodup
  have huniq : ∀ out : List fileChecksum, out.Perm arrival1 →
      out.Pairwise (fun a b => strLe a.Path b.Path = true) →
      out = sortSlice lessByPath arrival2 :=
    fun out hp hs => sortSlice_unique arrival2 out hnodup2 (hp.trans hperm) hs
  refine ⟨?_, huniq _ (sortSlice_perm _ _) (sortSlice_sorted _), huniq⟩
  obtain ⟨s1, -, hc1, hI1⟩ := checksumTreeWith_some h1
  obtain ⟨s2, -, hc2, hI2⟩ := checksumTreeWith_some h2
  obtain ⟨-, -, hl1, hp1⟩ := checksumTree_success hI1 hc1
  obtain ⟨-, -, hl2, hp2⟩ := checksumTree_success hI2 hc2
  have hnd : (regularFiles w.root w.tree).Nodup := regularFiles_nodup _ _ hwf
  -- the two collected lists hold the same records
  have hrec1 := hI1.collected
  have hrec2 := hI2.collected
  have hnd1 : (s1.fileChecksums.map fileChecksum.Path).Nodup := hp1.nodup_iff.mpr hnd
  have hnd2 : (s2.fileChecksums.map fileChecksum.Path).Nodup := hp2.nodup_iff.mpr hnd
  have hinj : ∀ (l : List fileChecksum),
      (∀ cs ∈ l, md5SumFile w cs.Path = (cs.Checksum, none)) →
      l = (l.map fileChecksum.Path).map (fun p => ⟨p, (md5SumFile w p).1⟩) := by
    intro l hl
    rw [List.map_map]
    conv_lhs => rw [← List.map_id l]
    refine List.map_congr_left ?_
    intro cs hcs
    simp [hl cs hcs]
  have hpermAcc : s1.fileChecksums.Perm s2.fileChecksums := by
    rw [hinj _ hrec1, hinj _ hrec2]
    exact (hp1.trans hp2.symm).map _
  rw [hl1, hl2]
  exact sortSlice_unique _ _ hnd2 ((sortSlice_perm _ _).trans hpermAcc) (sortSlice_sorted _)

/-- C8 at two runs on two files: one digester and the order of the walk,
twenty digesters and `b.txt` collected first. -/
theorem C8_deterministic_result_witness :
    checksumTreeWith 1 twoWorld runOne
        = some ([⟨ascii "d/a.txt", helloSum⟩, ⟨ascii "d/b.txt", helloSum⟩], none) ∧
      checksumTreeWith maxDigesters twoWorld runBA
        = some ([⟨ascii "d/a.txt", helloSum⟩, ⟨ascii "d/b.txt", helloSum⟩], none) ∧
      sortSlice lessByPath [⟨ascii "d/b.txt", helloSum⟩, ⟨ascii "d/a.txt", helloSum⟩]
        = sortSlice lessByPath [⟨ascii "d/a.txt", helloSum⟩, ⟨ascii "d/b.txt", helloSum⟩] :=
  ⟨by decide!, by decide!,
    (C8_deterministic_result twoWorld 1 maxDigesters runOne runBA
      [⟨ascii "d/a.txt", helloSum⟩, ⟨ascii "d/b.txt", helloSum⟩]
      [⟨ascii "d/a.txt", helloSum⟩, ⟨ascii "d/b.txt", helloSum⟩]
      (by decide) (by decide!) (by decide!)
      [⟨ascii "d/b.txt", helloSum⟩, ⟨ascii "d/a.txt", helloSum⟩]
      [⟨ascii "d/a.txt", helloSum⟩, ⟨ascii "d/b.txt", helloSum⟩]
      (List.Perm.swap _ _ _) (by decide)).2.1⟩

/-- C9 as stated fails: on the empty directory, with the context cancelled
before any goroutine takes a step, every `select` can take its channel
branch, and `checksumTree` returns the empty list and a nil error. -/
theorem C9_cancellation_unobserved :
    cancelledRun.head? = some (.cancel false) ∧
      checksumTreeRun emptyWorld cancelledRun = some ([], none) :=
  ⟨by decide, by decide⟩

/-- C9, amended: in every complete run in which some goroutine takes a
`ctx.Done()` branch, `checksumTree` returns a non-nil error and no list;
and when no traversal or read error occurs in the run, every error
`checksumTree` returns wraps the error of the cancelled context passed to
it. -/
theorem C9_observed_cancellation_fails (w : World) (acts : List Action)
    (ret : List fileChecksum × Option GoError) (h : checksumTreeRun w acts = some ret) :
    ((∃ a ∈ acts, a.isCtxBranch = true) → ret.1 = [] ∧ ret.2.isSome = true) ∧
    (failFree w (init w) acts = true → ∀ err, ret.2 = some err →
      ∃ d, .cancel d ∈ acts ∧
        err = Errorf (ascii "Error checksumming tree: %w") (cause d) ∧
        err.Unwrap = some (cause d)) := by
  obtain ⟨s, hrun, hc, hI⟩ := checksumTreeRun_some h
  refine ⟨?_, ?_⟩
  · intro hobs
    obtain ⟨e, -, hr⟩ := checksumTree_failure hI hc (observed_run hrun hobs)
    simp [hr]
  · intro hff err herr
    have hC := ctxInv_run_free hff (inv_init w _) (ctxInv_init w _) hrun
    obtain ⟨hcd, hfd⟩ := checksumTree_done hc
    rw [checksumTree_eq hcd hfd] at hc
    cases ho : s.outerErr with
    | none =>
      rw [ho] at hc
      simp only [Option.some.injEq] at hc
      rw [← hc] at herr
      simp at herr
    | some e =>
      rw [ho] at hc
      simp only [Option.some.injEq] at hc
      rw [← hc] at herr
      simp only [Option.some.injEq] at herr
      have hp := hC.outerErr e ho
      rcases parent_run hrun with ⟨hsame, -⟩ | ⟨d, hd, hpd⟩
      · rw [hsame] at hp
        simp [init, initWith] at hp
      · rw [hpd, Option.some.injEq] at hp
        exact ⟨d, hd, by rw [← herr, hp], by rw [← herr, hp]; rfl⟩

/-- C9, amended, at a run on the directory with the unreadable `c.txt`,
cancelled before the walker reaches that file: no error of the file system
occurs, the walker, the digesters and the collector leave through
`ctx.Done()`, and the error returned wraps `context.Canceled`. -/
theorem C9_observed_cancellation_fails_witness :
    checksumTreeRun brokenWorld brokenCancelledRun
        = some ([], some (Errorf (ascii "Error checksumming tree: %w") .canceled)) ∧
      failFree brokenWorld (init brokenWorld) brokenCancelledRun = true ∧
      ∃ d, Action.cancel d ∈ brokenCancelledRun ∧
        Errorf (ascii "Error checksumming tree: %w") .canceled
          = Errorf (ascii "Error checksumming tree: %w") (cause d) ∧
        (Errorf (ascii "Error checksumming tree: %w") .canceled).Unwrap = some (cause d) :=
  ⟨by decide!, by decide!,
    (C9_observed_cancellation_fails brokenWorld brokenCancelledRun
      ([], some (Errorf (ascii "Error checksumming tree: %w") .canceled)) (by decide!)).2
      (by decide!) _ rfl⟩

theorem isRegularCall_iff (c : WalkCall) :
    isRegularCall c = true ↔ c.err = none ∧ c.mode = some .regular := by
  obtain ⟨path, mode, err⟩ := c
  cases err with
  | some e => simp [isRegularCall]
  | none =>
    cases mode with
    | none => simp [isRegularCall]
    | some m => cases m <;> simp [isRegularCall]

/-- C10 as stated fails: after `md5SumFile` has failed in a digester of
the nested group, the collector is blocked at its `select` with neither
branch ready: the context of its own group is not cancelled and `resultsCh`
is not closed before the fetcher returns. -/
theorem C10_collector_blocked_after_failure :
    ∃ s, run brokenWorld (init brokenWorld) (brokenStart ++ [Action.digHash 1]) = some s ∧
      s.innerErr.isSome = true ∧ s.collector = .running ∧
      (step brokenWorld s .collCtx).isSome = false ∧
      (step brokenWorld s .collClosed).isSome = false :=
  ⟨_, rfl, by decide!, by decide!, by decide!, by decide!⟩

/-- C10, amended: no reachable state of the pipeline is a deadlock: while
some goroutine has not returned, a goroutine can take a step.  `jobsCh` is
closed exactly when the walker has returned, `resultsCh` exactly when the
fetcher has, which is after the walker and every digester have.  After a
cancellation of the context passed to `checksumTree`, or an error recorded
by the group of `checksumTree`, both contexts are done; after a failure in
the group of `fetchChecksums` its context is done.  A goroutine blocked in
a `select` can take its `ctx.Done()` branch once its context is done: the
walker and the digesters right after a failure of one of them, the
collector once the context of its group is done, and at the latest once
the fetcher has returned, when it can also receive from the closed
`resultsCh`.  `checksumTree` returns only when every goroutine has
returned; every run is finite and can be completed, after which
`checksumTree` returns. -/
theorem C10_no_deadlock (w : World) (acts : List Action) (s : State)
    (h : run w (init w) acts = some s) :
    (allReturned s = false → ∃ a s1, a.isTask = true ∧ step w s a = some s1) ∧
    s.jobsClosed = s.walker.isDone ∧
    s.resultsClosed = s.fetcher.isDone ∧
    (s.fetcher.isDone = true →
      s.walker.isDone = true ∧ ∀ d ∈ s.digesters, d.isDone = true) ∧
    (s.parentErr.isSome = true ∨ s.outerErr.isSome = true → s.outerCtx.isSome = true) ∧
    (s.parentErr.isSome = true ∨ s.outerErr.isSome = true ∨ s.innerErr.isSome = true →
      s.innerCtx.isSome = true) ∧
    (s.innerCtx.isSome = true → ∀ i d, s.digesters[i]? = some d →
      (d = .idle ∨ ∃ cs, d = .sending cs) → (step w s (.digCtx i)).isSome = true) ∧
    (s.innerCtx.isSome = true → ∀ c rest, s.walker = .walking (c :: rest) →
      isRegularCall c = true → (step w s .walkerCtx).isSome = true) ∧
    (s.outerCtx.isSome = true → s.collector = .running →
      (step w s .collCtx).isSome = true) ∧
    (s.fetcher.isDone = true → s.collector = .running →
      (step w s .collClosed).isSome = true ∧
        (s.innerErr.isSome = true → (step w s .collCtx).isSome = true)) ∧
    (∀ ret, checksumTree s = some ret → allReturned s = true) ∧
    acts.length + fuel s ≤ fuel (init w) ∧
    (∃ more s1, (∀ a ∈ more, a.isTask = true) ∧ run w s more = some s1 ∧
      allReturned s1 = true ∧ (checksumTree s1).isSome = true) := by
  have hI := inv_run (inv_init w _) h
  have hlen : 0 < s.digesters.length := by
    rw [length_run h]
    simp [init, initWith, maxDigesters]
  have hcoll : s.outerCtx.isSome = true → s.collector = .running →
      (step w s .collCtx).isSome = true := by
    intro hctx hc
    obtain ⟨err, herr⟩ := Option.isSome_iff_exists.mp hctx
    simp [step, hc, herr]
  refine ⟨?_, hI.jobs, hI.results, hI.waited, ?_, ?_, ?_, ?_, hcoll, ?_, ?_, run_length h, ?_⟩
  · intro hnot
    obtain ⟨a, hta, ha⟩ := progress hI hlen hnot
    obtain ⟨s1, hs1⟩ := Option.isSome_iff_exists.mp ha
    exact ⟨a, s1, hta, hs1⟩
  · rintro (hp | ho)
    · exact hI.parentCtx hp
    · exact hI.outerErrCtx ho
  · rintro (hp | ho | hi)
    · exact hI.outerInner (hI.parentCtx hp)
    · exact hI.outerInner (hI.outerErrCtx ho)
    · exact hI.innerErrCtx hi
  · intro hctx i d hd hkind
    obtain ⟨err, herr⟩ := Option.isSome_iff_exists.mp hctx
    rcases hkind with rfl | ⟨cs, rfl⟩ <;> simp [step, hd, herr]
  · intro hctx c rest hw hreg
    obtain ⟨err, herr⟩ := Option.isSome_iff_exists.mp hctx
    obtain ⟨he, hm⟩ := (isRegularCall_iff c).mp hreg
    simp [step, hw, he, hm, herr]
  · intro hf hc
    have hr : s.resultsClosed = true := by rw [hI.results]; exact hf
    exact ⟨by simp [step, hc, hr],
      fun hi => hcoll (hI.outerErrCtx (hI.fetcherErr hf hi)) hc⟩
  · intro ret hret
    exact checksumTree_allReturned hI hret
  · obtain ⟨more, s1, htask, hrun, hall⟩ :=
      exists_completion (fuel s) s (Nat.le_refl _) hI hlen
    refine ⟨more, s1, htask, hrun, hall, ?_⟩
    simp only [allReturned, Bool.and_eq_true] at hall
    rw [checksumTree_eq hall.1.2 hall.2]
    cases s1.outerErr <;> rfl

/-- C10, amended, at the state of `brokenWorld` in which `md5SumFile` has
failed in digester 1: the collector is blocked, the walker can take a
step. -/
theorem C10_no_deadlock_witness :
    ∃ s, run brokenWorld (init brokenWorld) (brokenStart ++ [Action.digHash 1]) = some s ∧
      allReturned s = false ∧
      ∃ a s1, a.isTask = true ∧ step brokenWorld s a = some s1 :=
  ⟨_, rfl, by decide!,
    (C10_no_deadlock brokenWorld (brokenStart ++ [Action.digHash 1]) _ rfl).1 (by decide!)⟩

end Bp
